import Mathlib

/-!
ccwc: a shallow embedding of `cmd/commands.go`

The counting engine `count`, the two input handlers, the printing handlers,
`rootRun` and the `RunE`/`Execute` wrapper are embedded as Lean functions.
The Go library functions the engine calls (`bytes.Fields`, `bytes.FieldsFunc`,
`bytes.Runes`, `utf8.RuneCount`, `utf8.DecodeRune`, `unicode.IsSpace`,
`fmt.Sprint`, `strings.Trim`) are embedded from the Go standard library.

Conventions.
* A byte is a `Fin 256`; Go `int` and `rune` values are `Nat` (all values that
  occur are non-negative and bounded by the content length or by `0x10FFFF`),
  except where the code uses a negative value, where they are `Int`.
* A function that can panic at run time (index out of range) returns an
  `Option`; `none` is the panic. Loops whose index advances by a variable
  amount carry a fuel argument, and `none` is also returned when it runs out.
* A Go result `([]int, error)` is a pair `List Nat × Option String`; the `nil`
  slice is `[]` and the `nil` error is `none`.
-/

namespace CcWc

/-- A byte of content. -/
abbrev Byte := Fin 256

/-- The bytes of a text made of ASCII characters only (used to write inputs). -/
def ascii (s : String) : List Byte := s.data.map (fun c => Fin.ofNat c.toNat)

/-! ## unicode/utf8 -/

namespace utf8

/-- The "error" rune U+FFFD. -/
def RuneError : Nat := 0xFFFD
/-- Characters below `RuneSelf` are represented as themselves in a single byte. -/
def RuneSelf : Nat := 0x80

def locb : Nat := 0x80
def hicb : Nat := 0xBF

def xx : Nat := 0xF1
def as : Nat := 0xF0
def s1 : Nat := 0x02
def s2 : Nat := 0x13
def s3 : Nat := 0x03
def s4 : Nat := 0x23
def s5 : Nat := 0x34
def s6 : Nat := 0x04
def s7 : Nat := 0x44

def mask2 : Nat := 0x1F
def mask3 : Nat := 0x0F
def mask4 : Nat := 0x07
def maskx : Nat := 0x3F

/-- The table `first`: information about the first byte of a UTF-8 sequence. -/
def firstTable : List Nat :=
  [ as, as, as, as, as, as, as, as, as, as, as, as, as, as, as, as, -- 0x00-0x0F
    as, as, as, as, as, as, as, as, as, as, as, as, as, as, as, as, -- 0x10-0x1F
    as, as, as, as, as, as, as, as, as, as, as, as, as, as, as, as, -- 0x20-0x2F
    as, as, as, as, as, as, as, as, as, as, as, as, as, as, as, as, -- 0x30-0x3F
    as, as, as, as, as, as, as, as, as, as, as, as, as, as, as, as, -- 0x40-0x4F
    as, as, as, as, as, as, as, as, as, as, as, as, as, as, as, as, -- 0x50-0x5F
    as, as, as, as, as, as, as, as, as, as, as, as, as, as, as, as, -- 0x60-0x6F
    as, as, as, as, as, as, as, as, as, as, as, as, as, as, as, as, -- 0x70-0x7F
    xx, xx, xx, xx, xx, xx, xx, xx, xx, xx, xx, xx, xx, xx, xx, xx, -- 0x80-0x8F
    xx, xx, xx, xx, xx, xx, xx, xx, xx, xx, xx, xx, xx, xx, xx, xx, -- 0x90-0x9F
    xx, xx, xx, xx, xx, xx, xx, xx, xx, xx, xx, xx, xx, xx, xx, xx, -- 0xA0-0xAF
    xx, xx, xx, xx, xx, xx, xx, xx, xx, xx, xx, xx, xx, xx, xx, xx, -- 0xB0-0xBF
    xx, xx, s1, s1, s1, s1, s1, s1, s1, s1, s1, s1, s1, s1, s1, s1, -- 0xC0-0xCF
    s1, s1, s1, s1, s1, s1, s1, s1, s1, s1, s1, s1, s1, s1, s1, s1, -- 0xD0-0xDF
    s2, s3, s3, s3, s3, s3, s3, s3, s3, s3, s3, s3, s3, s4, s3, s3, -- 0xE0-0xEF
    s5, s6, s6, s6, s7, xx, xx, xx, xx, xx, xx, xx, xx, xx, xx, xx ] -- 0xF0-0xFF

/-- The entry `first[b]`. -/
def first (b : Byte) : Nat := firstTable.getD b.val xx

/-- The table `acceptRanges` as pairs `(lo, hi)`; the entries past index 4 are zero. -/
def acceptRanges (k : Nat) : Nat × Nat :=
  match k with
  | 0 => (locb, hicb)
  | 1 => (0xA0, hicb)
  | 2 => (locb, 0x9F)
  | 3 => (0x90, hicb)
  | 4 => (locb, 0x8F)
  | _ => (0, 0)

/-- Arithmetic shift right by `k` of a 32-bit pattern (Go `>>` on `int32`). -/
def sar32 (v k : Nat) : Nat :=
  if v < 2 ^ 31 then v >>> k else (2 ^ 32 - 1) - ((2 ^ 32 - 1 - v) >>> k)

/-- The function `utf8.DecodeRune`: the first rune of `p` and its width in bytes. -/
def DecodeRune (p : List Byte) : Option (Nat × Nat) :=
  let n := p.length
  if n < 1 then some (RuneError, 0) else
  match p[0]? with
  | none => none
  | some p0 =>
    let x := first p0
    if x ≥ as then
      -- mask := rune(x) << 31 >> 31: all zeros or all ones
      let mask := sar32 ((x <<< 31) % 2 ^ 32) 31
      some ((p0.val &&& (mask ^^^ (2 ^ 32 - 1))) ||| (RuneError &&& mask), 1)
    else
      let sz := x &&& 7
      let accept := acceptRanges (x >>> 4)
      if n < sz then some (RuneError, 1) else
      match p[1]? with
      | none => none
      | some b1 =>
        if b1.val < accept.1 || accept.2 < b1.val then some (RuneError, 1) else
        if sz ≤ 2 then some (((p0.val &&& mask2) <<< 6) ||| (b1.val &&& maskx), 2) else
        match p[2]? with
        | none => none
        | some b2 =>
          if b2.val < locb || hicb < b2.val then some (RuneError, 1) else
          if sz ≤ 3 then
            some (((p0.val &&& mask3) <<< 12) ||| ((b1.val &&& maskx) <<< 6)
                    ||| (b2.val &&& maskx), 3)
          else
          match p[3]? with
          | none => none
          | some b3 =>
            if b3.val < locb || hicb < b3.val then some (RuneError, 1) else
            some (((p0.val &&& mask4) <<< 18) ||| ((b1.val &&& maskx) <<< 12)
                    ||| ((b2.val &&& maskx) <<< 6) ||| (b3.val &&& maskx), 4)

/-- The loop of `utf8.RuneCount`, from index `i` with `n` runes counted so far. -/
def RuneCountLoop (p : List Byte) : Nat → Nat → Nat → Option Nat
  | 0, i, n => if i < p.length then none else some n
  | fuel + 1, i, n =>
    if i < p.length then
      let n := n + 1
      match p[i]? with
      | none => none
      | some c =>
        if c.val < RuneSelf then RuneCountLoop p fuel (i + 1) n else
        let x := first c
        if x = xx then RuneCountLoop p fuel (i + 1) n else
        let size := x &&& 7
        if i + size > p.length then RuneCountLoop p fuel (i + 1) n else
        let accept := acceptRanges (x >>> 4)
        match p[i + 1]? with
        | none => none
        | some c1 =>
          if c1.val < accept.1 || accept.2 < c1.val then RuneCountLoop p fuel (i + 1) n
          else if size = 2 then RuneCountLoop p fuel (i + size) n
          else
            match p[i + 2]? with
            | none => none
            | some c2 =>
              if c2.val < locb || hicb < c2.val then RuneCountLoop p fuel (i + 1) n
              else if size = 3 then RuneCountLoop p fuel (i + size) n
              else
                match p[i + 3]? with
                | none => none
                | some c3 =>
                  if c3.val < locb || hicb < c3.val then RuneCountLoop p fuel (i + 1) n
                  else RuneCountLoop p fuel (i + size) n
    else some n

/-- The function `utf8.RuneCount`: the number of runes in `p`. -/
def RuneCount (p : List Byte) : Option Nat := RuneCountLoop p p.length 0 0

end utf8

/-! ## unicode -/

namespace unicode

def MaxLatin1 : Nat := 0xFF
def linearMax : Nat := 18

/-- The 16-bit ranges `(Lo, Hi, Stride)` of the table `White_Space`. -/
def White_Space_R16 : List (Nat × Nat × Nat) :=
  [ (0x0009, 0x000d, 1),
    (0x0020, 0x0085, 101),
    (0x00a0, 0x1680, 5600),
    (0x2000, 0x200a, 1),
    (0x2028, 0x2029, 1),
    (0x202f, 0x205f, 48),
    (0x3000, 0x3000, 1) ]

/-- The field `LatinOffset` of the table `White_Space`. -/
def White_Space_LatinOffset : Nat := 2

/-- The linear search of `is16` (the tables used here have at most `linearMax` ranges). -/
def is16 (ranges : List (Nat × Nat × Nat)) (r : Nat) : Bool :=
  match ranges with
  | [] => false
  | (lo, hi, stride) :: rest =>
    if r < lo then false
    else if r ≤ hi then stride == 1 || (r - lo) % stride == 0
    else is16 rest r

/-- The function `isExcludingLatin` on `White_Space`, whose 32-bit table is empty. -/
def isExcludingLatin (r : Nat) : Bool :=
  let r16 := White_Space_R16
  let off := White_Space_LatinOffset
  if r16.length > off && r ≤ (r16.getD (r16.length - 1) (0, 0, 0)).2.1 then
    is16 (r16.drop off) (r % 2 ^ 16)
  else false

/-- The function `unicode.IsSpace`. -/
def IsSpace (r : Nat) : Bool :=
  if r ≤ MaxLatin1 then
    match r with
    | 0x09 | 0x0A | 0x0B | 0x0C | 0x0D | 0x20 | 0x85 | 0xA0 => true
    | _ => false
  else isExcludingLatin r

end unicode

/-! ## bytes -/

namespace bytes

/-- The Go slice expression `s[a:b]`. -/
def slice (s : List Byte) (a b : Nat) : List Byte := (s.drop a).take (b - a)

/-- The indexed assignment `a[i] = v`, which panics when `i` is out of range. -/
def setAt {α : Type} (a : List α) (i : Nat) (v : α) : Option (List α) :=
  if i < a.length then some (a.set i v) else none

/-- The loop of `bytes.Runes`: decode `s` rune by rune into `t`, from index `i`. -/
def RunesLoop : Nat → List Byte → List Nat → Nat → Option (List Nat)
  | 0, s, t, _ => if s.length > 0 then none else some t
  | fuel + 1, s, t, i =>
    if s.length > 0 then
      match utf8.DecodeRune s with
      | none => none
      | some (r, l) =>
        match setAt t i r with
        | none => none
        | some t => RunesLoop fuel (s.drop l) t (i + 1)
    else some t

/-- The function `bytes.Runes`: the runes of `s`, in a slice allocated with
`utf8.RuneCount(s)` entries. -/
def Runes (s : List Byte) : Option (List Nat) :=
  match utf8.RuneCount s with
  | none => none
  | some n => RunesLoop s.length s (List.replicate n 0) 0

/-- The table `asciiSpace`. -/
def asciiSpace (b : Byte) : Nat :=
  match b.val with
  | 0x09 | 0x0A | 0x0B | 0x0C | 0x0D | 0x20 => 1
  | _ => 0

/-- The loop of `bytes.FieldsFunc` that records the spans of the fields; `start` is
the start of the current field, or `-1`. It returns the final `start` and the spans. -/
def FieldsFuncLoop (s : List Byte) (f : Nat → Bool) :
    Nat → Nat → Int → List (Int × Int) → Option (Int × List (Int × Int))
  | 0, i, start, spans => if i < s.length then none else some (start, spans)
  | fuel + 1, i, start, spans =>
    match s[i]? with
    | none => some (start, spans)
    | some b =>
      let dec : Option (Nat × Nat) :=
        if b.val ≥ utf8.RuneSelf then utf8.DecodeRune (s.drop i) else some (b.val, 1)
      match dec with
      | none => none
      | some (r, size) =>
        if f r then
          if start ≥ 0 then FieldsFuncLoop s f fuel (i + size) (-1) (spans ++ [(start, (i : Int))])
          else FieldsFuncLoop s f fuel (i + size) start spans
        else
          if start < 0 then FieldsFuncLoop s f fuel (i + size) (i : Int) spans
          else FieldsFuncLoop s f fuel (i + size) start spans

/-- The function `bytes.FieldsFunc`. -/
def FieldsFunc (s : List Byte) (f : Nat → Bool) : Option (List (List Byte)) :=
  match FieldsFuncLoop s f s.length 0 (-1) [] with
  | none => none
  | some (start, spans) =>
    -- Last field might end at EOF.
    let spans := if start ≥ 0 then spans ++ [(start, (s.length : Int))] else spans
    some (spans.map (fun sp => slice s sp.1.toNat sp.2.toNat))

/-- The counting pass of `bytes.Fields`: the state is `(n, wasSpace, setBits)`.
The complement `^isSpace` is taken on the 64-bit two's-complement pattern. -/
def FieldsCount (s : List Byte) : Nat × Nat × Nat :=
  s.foldl
    (fun (st : Nat × Nat × Nat) (r : Byte) =>
      let setBits := st.2.2 ||| r.val
      let isSpace := asciiSpace r
      (st.1 + (st.2.1 &&& (isSpace ^^^ (2 ^ 64 - 1))), isSpace, setBits))
    (0, 1, 0)

/-- The loop `for i < len(s) && asciiSpace[s[i]] != 0 { i++ }`. -/
def skipSpaces (s : List Byte) : Nat → Nat → Nat
  | 0, i => i
  | fuel + 1, i =>
    match s[i]? with
    | none => i
    | some b => if asciiSpace b ≠ 0 then skipSpaces s fuel (i + 1) else i

/-- The main loop of the ASCII path of `bytes.Fields`; it returns `(a, na, fieldStart)`. -/
def FieldsAsciiLoop (s : List Byte) :
    Nat → Nat → Nat → List (List Byte) → Nat → Option (List (List Byte) × Nat × Nat)
  | 0, i, fieldStart, a, na => if i < s.length then none else some (a, na, fieldStart)
  | fuel + 1, i, fieldStart, a, na =>
    match s[i]? with
    | none => some (a, na, fieldStart)
    | some b =>
      if asciiSpace b = 0 then FieldsAsciiLoop s fuel (i + 1) fieldStart a na
      else
        match setAt a na (slice s fieldStart i) with
        | none => none
        | some a =>
          let na := na + 1
          let i := i + 1
          -- Skip spaces in between fields.
          let i := skipSpaces s s.length i
          FieldsAsciiLoop s fuel i i a na

/-- The function `bytes.Fields`. -/
def Fields (s : List Byte) : Option (List (List Byte)) :=
  let (n, _, setBits) := FieldsCount s
  if setBits ≥ utf8.RuneSelf then
    -- Some runes in the input slice are not ASCII.
    FieldsFunc s unicode.IsSpace
  else
    -- ASCII fast path
    let a : List (List Byte) := List.replicate n []
    -- Skip spaces in the front of the input.
    let i := skipSpaces s s.length 0
    match FieldsAsciiLoop s (s.length + 1) i i a 0 with
    | none => none
    | some (a, na, fieldStart) =>
      if fieldStart < s.length then -- Last field might end at EOF.
        setAt a na (slice s fieldStart s.length)
      else some a

end bytes

/-! ## fmt and strings -/

/-- The verb `%d` on a non-negative `int`. -/
def fmtD (n : Nat) : String := Nat.repr n

/-- The function `fmt.Sprint` on one `[]int` operand: the elements between brackets,
separated by spaces. -/
def Sprint (counts : List Nat) : String :=
  "[" ++ " ".intercalate (counts.map fmtD) ++ "]"

/-- The function `strings.Trim`: `s` with all leading and trailing code points
contained in `cutset` removed. -/
def Trim (s cutset : String) : String :=
  let left := s.data.dropWhile (fun c => cutset.data.contains c)
  String.mk (left.reverse.dropWhile (fun c => cutset.data.contains c)).reverse

/-! ## cmd/commands.go: the counting engine -/

/-- The conversion `string(content[i])` of one byte: the UTF-8 encoding of the code
point whose number is the byte. -/
def stringOfByte (b : Byte) : List Byte :=
  if b.val < utf8.RuneSelf then [b]
  else [Fin.ofNat (0xC0 ||| (b.val >>> 6)), Fin.ofNat (0x80 ||| (b.val &&& 0x3F))]

/-- The line loop of `count`: `counter` goes up by one at each index `i` where
`string(content[i]) == "\n"`. -/
def countLines (content : List Byte) : Nat :=
  content.foldl (fun counter b => if stringOfByte b = [0x0A] then counter + 1 else counter) 0

/-- The error built by `count` for a command outside the switch. -/
def unknownFlagError (command : String) : String :=
  "error: unknown shorthand flag: \x27" ++ command ++ "\x27 in -" ++ command

/-- The loop `for _, command := range commands` of `count`, with the slice
`counters` built so far. -/
def countLoop (content : List Byte) : List String → List Nat → Option (List Nat × Option String)
  | [], counters => some (counters, none)
  | command :: rest, counters =>
    if command = "c" then
      countLoop content rest (counters ++ [content.length])
    else if command = "l" then
      countLoop content rest (counters ++ [countLines content])
    else if command = "w" then
      match bytes.Fields content with
      | none => none
      | some fields => countLoop content rest (counters ++ [fields.length])
    else if command = "m" then
      match bytes.Runes content with
      | none => none
      | some runes => countLoop content rest (counters ++ [runes.length])
    else some ([], some (unknownFlagError command))

/-- The function `count`: the counts of `content` for `commands`, in order. -/
def count (content : List Byte) (commands : List String) : Option (List Nat × Option String) :=
  countLoop content commands []

/-! ## cmd/commands.go: input, output and dispatch -/

/-- What the program reads and writes: the result of `os.ReadFile` for each path,
the bytes standard input still holds with the error that draining it meets (if any),
the result of `os.Stdin.Stat()` (its mode bits, when it succeeds), the text `cmd.Help()`
prints, and what has been written to standard output and to standard error. -/
structure World where
  files : String → Except String (List Byte)
  stdin : List Byte
  stdinErr : Option String
  stdinMode : Option Nat
  usage : String
  stdout : String
  stderr : String

/-- The flags of the command line: `cmd.Flags().Changed(name)` for the four names. -/
structure Flags where
  bytes : Bool
  lines : Bool
  words : Bool
  multibytes : Bool
deriving DecidableEq, Repr

/-- The bit `os.ModeCharDevice`. -/
def ModeCharDevice : Nat := 1 <<< 21

/-- The function `stdinHasData`: true when standard input is piped or redirected. -/
def stdinHasData (w : World) : Bool :=
  match w.stdinMode with
  | none => false
  | some mode => (mode &&& ModeCharDevice) == 0

/-- The call `fmt.Fprintln(os.Stderr, err)`. -/
def printErr (w : World) (err : String) : World :=
  { w with stderr := w.stderr ++ err ++ "\n" }

/-- The call `io.ReadAll(os.Stdin)`: everything standard input still holds. -/
def readAllStdin (w : World) : World × List Byte × Option String :=
  ({ w with stdin := [] }, w.stdin, w.stdinErr)

/-- The function `handleFile`. -/
def handleFile (w : World) (filename : String) (commands : List String) :
    Option (World × List Nat × Option String) :=
  match w.files filename with
  | .error err => some (w, [], some err)
  | .ok content =>
    match count content commands with
    | none => none
    | some (counts, err) =>
      let w := match err with
        | some e => { w with stdout := w.stdout ++ "An error has occurred " ++ e }
        | none => w
      some (w, counts, none)

/-- The function `handleStdin`. -/
def handleStdin (w : World) (commands : List String) :
    Option (World × List Nat × Option String) :=
  match readAllStdin w with
  | (w, _, some err) => some (w, [], some err)
  | (w, content, none) =>
    match count content commands with
    | none => none
    | some (counts, err) =>
      let w := match err with
        | some e => { w with stdout := w.stdout ++ "An error has occurred " ++ e }
        | none => w
      some (w, counts, none)

/-- The function `handleCommand`; it prints `"%d %s"` of the count and the file name. -/
def handleCommand (w : World) (filename : String) (command : String) :
    Option (World × Option String) :=
  let res :=
    if filename.length > 0 then handleFile w filename [command]
    else handleStdin w [command]
  match res with
  | none => none
  | some (w, _, some err) => some (w, some err)
  | some (w, counters, none) =>
    match counters[0]? with
    | none => none
    | some count => some ({ w with stdout := w.stdout ++ fmtD count ++ " " ++ filename }, none)

/-- The function `handleCommands`; it prints the trimmed `fmt.Sprint(counts)` and the
file name. -/
def handleCommands (w : World) (filename : String) (commands : List String) :
    Option (World × Option String) :=
  let res :=
    if filename.length > 0 then handleFile w filename commands
    else handleStdin w commands
  match res with
  | none => none
  | some (w, _, some err) => some (w, some err)
  | some (w, counts, none) =>
    let countsStr := Trim (Sprint counts) "[]"
    some ({ w with stdout := w.stdout ++ countsStr ++ " " ++ filename }, none)

/-- One flag block of `rootRun`: when the flag was set, run `handleCommand`. -/
def flagBlock (changed : Bool) (w : World) (filename command : String) :
    Option (World × Option String) :=
  if changed then handleCommand w filename command else some (w, none)

/-- The function `rootRun`. -/
def rootRun (w : World) (flags : Flags) (args : List String) : Option World :=
  let filename := if args.length > 0 then args.getD 0 "" else ""
  let flagsUsed := false
  match flagBlock flags.bytes w filename "c" with
  | none => none
  | some (w, some err) => some (printErr w err)
  | some (w, none) =>
  let flagsUsed := flagsUsed || flags.bytes
  match flagBlock flags.lines w filename "l" with
  | none => none
  | some (w, some err) => some (printErr w err)
  | some (w, none) =>
  let flagsUsed := flagsUsed || flags.lines
  match flagBlock flags.words w filename "w" with
  | none => none
  | some (w, some err) => some (printErr w err)
  | some (w, none) =>
  let flagsUsed := flagsUsed || flags.words
  match flagBlock flags.multibytes w filename "m" with
  | none => none
  | some (w, some err) => some (printErr w err)
  | some (w, none) =>
  let flagsUsed := flagsUsed || flags.multibytes
  if !flagsUsed then
    let commands := ["l", "w", "c"]
    match handleCommands w filename commands with
    | none => none
    | some (w, some err) => some (printErr w err)
    | some (w, none) => some w
  else some w

/-- The number `cmd.Flags().NFlag()` of flags that were set. -/
def NFlag (flags : Flags) : Nat :=
  flags.bytes.toNat + flags.lines.toNat + flags.words.toNat + flags.multibytes.toNat

/-- The call `cmd.Help()`: it prints the usage text and returns no error. -/
def Help (w : World) : World × Option String :=
  ({ w with stdout := w.stdout ++ w.usage }, none)

/-- The field `RunE` of `rootCmd`, on the parsed flags and arguments. -/
def RunE (w : World) (flags : Flags) (args : List String) : Option (World × Option String) :=
  let hasFlags := NFlag flags > 0
  let hasArgs := args.length > 0
  let hasStdin := stdinHasData w
  -- No flags, no args, no stdin -> user just typed the bare command
  if !hasFlags && !hasArgs && !hasStdin then some (Help w)
  else
    -- Continue with normal behavior
    match rootRun w flags args with
    | none => none
    | some w => some (w, none)

/-- The function `Execute`: it runs the command on the parsed flags and arguments; the
second component is `some 1` when `os.Exit(1)` is reached and `none` when `Execute`
returns to its caller. -/
def Execute (w : World) (flags : Flags) (args : List String) : Option (World × Option Nat) :=
  match RunE w flags args with
  | none => none
  | some (w, some err) => some (printErr w err, some 1)
  | some (w, none) => some (w, none)

/-! ## Reference definitions

UTF-8 as the Unicode Standard defines it (Table 3-7, well-formed byte sequences), the
characters of a byte sequence, and the words of a sequence of characters. -/

/-- The lead bytes of well-formed UTF-8: for each, the length of the sequence and the
range `lo..hi` allowed for its second byte. -/
def leadClass (b0 : Byte) : Option (Nat × Nat × Nat) :=
  if b0.val ≤ 0x7F then some (1, 0x00, 0x7F)
  else if 0xC2 ≤ b0.val ∧ b0.val ≤ 0xDF then some (2, 0x80, 0xBF)
  else if b0.val = 0xE0 then some (3, 0xA0, 0xBF)
  else if 0xE1 ≤ b0.val ∧ b0.val ≤ 0xEC then some (3, 0x80, 0xBF)
  else if b0.val = 0xED then some (3, 0x80, 0x9F)
  else if 0xEE ≤ b0.val ∧ b0.val ≤ 0xEF then some (3, 0x80, 0xBF)
  else if b0.val = 0xF0 then some (4, 0x90, 0xBF)
  else if 0xF1 ≤ b0.val ∧ b0.val ≤ 0xF3 then some (4, 0x80, 0xBF)
  else if b0.val = 0xF4 then some (4, 0x80, 0x8F)
  else none

/-- A continuation byte `80..BF`. -/
def isCont (b : Byte) : Bool := 0x80 ≤ b.val && b.val ≤ 0xBF

/-- The length of the well-formed UTF-8 sequence that `p` starts with, if there is one. -/
def wellFormedLen : List Byte → Option Nat
  | [] => none
  | b0 :: rest =>
    match leadClass b0 with
    | none => none
    | some (len, lo, hi) =>
      if len = 1 then some 1
      else
        match rest with
        | [] => none
        | b1 :: more =>
          if lo ≤ b1.val ∧ b1.val ≤ hi ∧ len - 2 ≤ more.length ∧ (more.take (len - 2)).all isCont
          then some len else none

/-- The number of bytes one decode step consumes: a whole well-formed sequence, or one
invalid byte. -/
def stepLen (p : List Byte) : Nat := (wellFormedLen p).getD 1

/-- The character one decode step yields: the code point of the well-formed sequence
that `p` starts with, or the replacement character U+FFFD for an invalid byte. -/
def codePoint (p : List Byte) : Nat :=
  let b (k : Nat) : Nat := (p.getD k 0).val
  match wellFormedLen p with
  | none => 0xFFFD
  | some len =>
    if len = 1 then b 0
    else if len = 2 then (b 0 - 0xC0) * 64 + (b 1 - 0x80)
    else if len = 3 then (b 0 - 0xE0) * 4096 + (b 1 - 0x80) * 64 + (b 2 - 0x80)
    else (b 0 - 0xF0) * 262144 + (b 1 - 0x80) * 4096 + (b 2 - 0x80) * 64 + (b 3 - 0x80)

/-- The characters of `p` after the first `skip` bytes (the rest of a sequence already
decoded), one per decode step. -/
def charsFrom : Nat → List Byte → List Nat
  | _, [] => []
  | 0, b :: rest => codePoint (b :: rest) :: charsFrom (stepLen (b :: rest) - 1) rest
  | skip + 1, _ :: rest => charsFrom skip rest

/-- The characters of `p` read as UTF-8, one per decode step. -/
def utf8Chars (p : List Byte) : List Nat := charsFrom 0 p

/-- The number of characters of `p` read as UTF-8. -/
def utf8CharCount (p : List Byte) : Nat := (utf8Chars p).length

/-- White space: the characters with the Unicode property `White_Space`. -/
def isWhiteSpace (c : Nat) : Bool :=
  c ∈ [0x09, 0x0A, 0x0B, 0x0C, 0x0D, 0x20, 0x85, 0xA0, 0x1680, 0x2028, 0x2029, 0x202F,
    0x205F, 0x3000] || (0x2000 ≤ c && c ≤ 0x200A)

/-- The number of words that start in `cs`: the positions that hold a non-white-space
character and follow a white-space character, the first position counting as such when
`prevSpace` is true. -/
def wordRuns (prevSpace : Bool) : List Nat → Nat
  | [] => 0
  | c :: cs =>
    (if prevSpace && !isWhiteSpace c then 1 else 0) + wordRuns (isWhiteSpace c) cs

/-- The words of a sequence of characters: its maximal runs of non-white-space
characters, that is the non-empty pieces between its white-space characters. -/
def words (cs : List Nat) : List (List Nat) :=
  (cs.splitOnP isWhiteSpace).filter (fun piece => !piece.isEmpty)

/-- The number of words of `p` read as UTF-8. -/
def wordCount (p : List Byte) : Nat := (words (utf8Chars p)).length

/-! ## Definitions used to state the properties -/

/-- The four unit kinds `count` knows: bytes, lines, words, multibyte characters. -/
def kinds : List String := ["c", "l", "w", "m"]

/-- The count of one unit kind over `content`: its length for `"c"`, its `0x0A` bytes for
`"l"`, its words for `"w"`, its characters otherwise. -/
def unitCount (content : List Byte) (command : String) : Nat :=
  if command = "c" then content.length
  else if command = "l" then content.count 0x0A
  else if command = "w" then wordCount content
  else utf8CharCount content

/-- The characters the trim of `handleCommands` removes. -/
def isBracket (c : Char) : Bool := "[]".data.contains c

/-- The input named by `f` resolves to the content `C`: the file `f` reads as `C`, or,
with an empty name, standard input holds `C` and drains without error. -/
def Reads (w : World) (f : String) (C : List Byte) : Prop :=
  if f.length > 0 then w.files f = .ok C else (w.stdin = C ∧ w.stdinErr = none)

/-- The commands of the flags that are set, in the order `rootRun` checks them. -/
def flagCommands (flags : Flags) : List String :=
  (if flags.bytes then ["c"] else []) ++ (if flags.lines then ["l"] else []) ++
    (if flags.words then ["w"] else []) ++ (if flags.multibytes then ["m"] else [])

/-- The output format `"<c1> <c2> ... <cn> <f>"`: the counts of the set flags separated
by single spaces, then a space and the file name once. -/
def claimedFlagsOutput (flags : Flags) (C : List Byte) (f : String) : String :=
  " ".intercalate ((flagCommands flags).map (fun cmd => fmtD (unitCount C cmd))) ++ " " ++ f

/-- No flag set. -/
def noFlags : Flags := ⟨false, false, false, false⟩

/-- A world with two files, `f` holding `"one two\nthree\n"` and `g` holding `"a\n"`, no
other file, and `"a\n"` piped to standard input. -/
def exampleWorld : World :=
  { files := fun f =>
      if f = "f" then .ok (ascii "one two\nthree\n")
      else if f = "g" then .ok (ascii "a\n")
      else .error ("open " ++ f ++ ": no such file or directory"),
    stdin := ascii "a\n", stdinErr := none, stdinMode := some 0, usage := "",
    stdout := "", stderr := "" }

/-! ## Lemmas: UTF-8 decoding -/

open utf8 bytes unicode

set_option maxRecDepth 100000 in
theorem first_spec : ∀ b : Byte,
    (leadClass b = none → first b = xx ∧ 0x80 ≤ b.val) ∧
    (leadClass b ≠ none →
      ((leadClass b).getD (0, 0, 0)).1 = 1 → first b = as ∧ b.val < 0x80) ∧
    (leadClass b ≠ none →
      ((leadClass b).getD (0, 0, 0)).1 ≠ 1 →
        first b < as ∧ first b &&& 7 = ((leadClass b).getD (0, 0, 0)).1 ∧
        acceptRanges (first b >>> 4) = ((leadClass b).getD (0, 0, 0)).2 ∧
        (((leadClass b).getD (0, 0, 0)).1 = 2 ∨ ((leadClass b).getD (0, 0, 0)).1 = 3 ∨
          ((leadClass b).getD (0, 0, 0)).1 = 4) ∧ 0x80 ≤ b.val) := by
  decide

theorem first_none {b : Byte} (h : leadClass b = none) : first b = xx ∧ 0x80 ≤ b.val :=
  (first_spec b).1 h

theorem first_one {b : Byte} {lo hi : Nat} (h : leadClass b = some (1, lo, hi)) :
    first b = as ∧ b.val < 0x80 := by
  have := (first_spec b).2.1 (by simp [h]) (by simp [h])
  exact this

theorem first_multi {b : Byte} {len lo hi : Nat} (h : leadClass b = some (len, lo, hi))
    (h1 : len ≠ 1) :
    first b < as ∧ first b &&& 7 = len ∧ acceptRanges (first b >>> 4) = (lo, hi) ∧
      (len = 2 ∨ len = 3 ∨ len = 4) ∧ 0x80 ≤ b.val := by
  have := (first_spec b).2.2 (by simp [h]) (by simpa [h] using h1)
  simpa [h] using this

set_option maxRecDepth 100000 in
theorem DecodeRune_mask : ∀ b : Byte, first b ≥ as →
    (b.val &&& (sar32 ((first b <<< 31) % 2 ^ 32) 31 ^^^ (2 ^ 32 - 1))) |||
      (RuneError &&& sar32 ((first b <<< 31) % 2 ^ 32) 31) =
    if b.val < 0x80 then b.val else RuneError := by
  decide

theorem or_of_lt (i a b : Nat) (hb : b < 2 ^ i) : (a * 2 ^ i) ||| b = a * 2 ^ i + b := by
  rw [Nat.mul_comm a (2 ^ i), Nat.mul_add_lt_is_or hb a]

theorem and_maskx (b : Nat) : b &&& maskx = b % 64 := by
  have := Nat.and_pow_two_sub_one_eq_mod b 6
  simpa [maskx] using this

theorem and_mask2 (b : Nat) : b &&& mask2 = b % 32 := by
  have := Nat.and_pow_two_sub_one_eq_mod b 5
  simpa [mask2] using this

theorem and_mask3 (b : Nat) : b &&& mask3 = b % 16 := by
  have := Nat.and_pow_two_sub_one_eq_mod b 4
  simpa [mask3] using this

theorem and_mask4 (b : Nat) : b &&& mask4 = b % 8 := by
  have := Nat.and_pow_two_sub_one_eq_mod b 3
  simpa [mask4] using this

theorem bits2 (b0 b1 : Nat) :
    ((b0 &&& mask2) <<< 6) ||| (b1 &&& maskx) = (b0 % 32) * 64 + b1 % 64 := by
  have hb1 : b1 % 64 < 64 := Nat.mod_lt _ (by norm_num)
  rw [and_mask2, and_maskx, Nat.shiftLeft_eq, or_of_lt 6 _ _ (by norm_num; omega)]
  norm_num

theorem bits3 (b0 b1 b2 : Nat) :
    ((b0 &&& mask3) <<< 12) ||| ((b1 &&& maskx) <<< 6) ||| (b2 &&& maskx) =
      (b0 % 16) * 4096 + (b1 % 64) * 64 + b2 % 64 := by
  rw [and_mask3, and_maskx, and_maskx, Nat.shiftLeft_eq, Nat.shiftLeft_eq]
  have hb1 : b1 % 64 < 64 := Nat.mod_lt _ (by norm_num)
  have hb2 : b2 % 64 < 64 := Nat.mod_lt _ (by norm_num)
  rw [or_of_lt 12 _ _ (by norm_num; omega)]
  have e : b0 % 16 * 2 ^ 12 + b1 % 64 * 2 ^ 6 = (b0 % 16 * 64 + b1 % 64) * 2 ^ 6 := by
    norm_num; omega
  rw [e, or_of_lt 6 _ _ (by norm_num; omega)]
  norm_num; omega

theorem bits4 (b0 b1 b2 b3 : Nat) :
    ((b0 &&& mask4) <<< 18) ||| ((b1 &&& maskx) <<< 12) ||| ((b2 &&& maskx) <<< 6)
        ||| (b3 &&& maskx) =
      (b0 % 8) * 262144 + (b1 % 64) * 4096 + (b2 % 64) * 64 + b3 % 64 := by
  rw [and_mask4, and_maskx, and_maskx, and_maskx, Nat.shiftLeft_eq, Nat.shiftLeft_eq,
    Nat.shiftLeft_eq]
  have hb1 : b1 % 64 < 64 := Nat.mod_lt _ (by norm_num)
  have hb2 : b2 % 64 < 64 := Nat.mod_lt _ (by norm_num)
  have hb3 : b3 % 64 < 64 := Nat.mod_lt _ (by norm_num)
  rw [or_of_lt 18 _ _ (by norm_num; omega)]
  have e : b0 % 8 * 2 ^ 18 + b1 % 64 * 2 ^ 12 = (b0 % 8 * 64 + b1 % 64) * 2 ^ 12 := by
    norm_num; omega
  rw [e, or_of_lt 12 _ _ (by norm_num; omega)]
  have e2 : (b0 % 8 * 64 + b1 % 64) * 2 ^ 12 + b2 % 64 * 2 ^ 6 =
      ((b0 % 8 * 64 + b1 % 64) * 64 + b2 % 64) * 2 ^ 6 := by
    norm_num; omega
  rw [e2, or_of_lt 6 _ _ (by norm_num; omega)]
  norm_num; omega

theorem DecodeRune_ascii (b0 : Byte) (rest : List Byte) (h : b0.val < 0x80) :
    DecodeRune (b0 :: rest) = some (b0.val, 1) := by
  have hc : leadClass b0 = some (1, 0x00, 0x7F) := by
    unfold leadClass; rw [if_pos (by omega)]
  have hf := (first_one hc).1
  have hm := DecodeRune_mask b0 (by simp [hf])
  rw [if_pos h] at hm
  unfold DecodeRune
  simp only [List.length_cons, List.getElem?_cons_zero]
  rw [if_neg (by omega), if_pos (by simp [hf]), hm]

theorem DecodeRune_invalid (b0 : Byte) (rest : List Byte) (h : leadClass b0 = none) :
    DecodeRune (b0 :: rest) = some (RuneError, 1) := by
  have hf := first_none h
  have hm := DecodeRune_mask b0 (by rw [hf.1]; decide)
  rw [if_neg (by omega)] at hm
  unfold DecodeRune
  simp only [List.length_cons, List.getElem?_cons_zero]
  rw [if_neg (by omega), if_pos (by rw [hf.1]; decide), hm]

theorem wellFormedLen_short1 (b0 : Byte) {len lo hi : Nat}
    (h : leadClass b0 = some (len, lo, hi)) (h1 : len ≠ 1) : wellFormedLen [b0] = none := by
  simp [wellFormedLen, h, h1]

theorem wellFormedLen_two (b0 b1 : Byte) (more : List Byte) {lo hi : Nat}
    (h : leadClass b0 = some (2, lo, hi)) :
    wellFormedLen (b0 :: b1 :: more) = if lo ≤ b1.val ∧ b1.val ≤ hi then some 2 else none := by
  simp [wellFormedLen, h]

theorem wellFormedLen_short2 (b0 b1 : Byte) {len lo hi : Nat}
    (h : leadClass b0 = some (len, lo, hi)) (h1 : len = 3 ∨ len = 4) :
    wellFormedLen [b0, b1] = none := by
  rcases h1 with rfl | rfl <;> simp [wellFormedLen, h]

theorem wellFormedLen_three (b0 b1 b2 : Byte) (more : List Byte) {lo hi : Nat}
    (h : leadClass b0 = some (3, lo, hi)) :
    wellFormedLen (b0 :: b1 :: b2 :: more) =
      if lo ≤ b1.val ∧ b1.val ≤ hi ∧ isCont b2 = true then some 3 else none := by
  simp [wellFormedLen, h]

theorem wellFormedLen_short3 (b0 b1 b2 : Byte) {lo hi : Nat}
    (h : leadClass b0 = some (4, lo, hi)) :
    wellFormedLen [b0, b1, b2] = none := by
  simp [wellFormedLen, h]

theorem wellFormedLen_four (b0 b1 b2 b3 : Byte) (more : List Byte) {lo hi : Nat}
    (h : leadClass b0 = some (4, lo, hi)) :
    wellFormedLen (b0 :: b1 :: b2 :: b3 :: more) =
      if lo ≤ b1.val ∧ b1.val ≤ hi ∧ isCont b2 = true ∧ isCont b3 = true then some 4
      else none := by
  simp [wellFormedLen, h]

theorem isCont_iff (b : Byte) : isCont b = true ↔ 0x80 ≤ b.val ∧ b.val ≤ 0xBF := by
  simp [isCont]

theorem spec_of_none {p : List Byte} (h : wellFormedLen p = none) :
    codePoint p = RuneError ∧ stepLen p = 1 := by
  constructor
  · unfold codePoint; rw [h]; rfl
  · unfold stepLen; rw [h]; rfl

theorem leadClass_two {b : Byte} {lo hi : Nat} (h : leadClass b = some (2, lo, hi)) :
    0xC2 ≤ b.val ∧ b.val ≤ 0xDF ∧ 0x80 ≤ lo ∧ hi ≤ 0xBF := by
  unfold leadClass at h
  split_ifs at h <;> simp at h
  omega

theorem leadClass_three {b : Byte} {lo hi : Nat} (h : leadClass b = some (3, lo, hi)) :
    0xE0 ≤ b.val ∧ b.val ≤ 0xEF ∧ 0x80 ≤ lo ∧ hi ≤ 0xBF := by
  unfold leadClass at h
  split_ifs at h <;> simp at h <;> omega

theorem leadClass_four {b : Byte} {lo hi : Nat} (h : leadClass b = some (4, lo, hi)) :
    0xF0 ≤ b.val ∧ b.val ≤ 0xF4 ∧ 0x80 ≤ lo ∧ hi ≤ 0xBF := by
  unfold leadClass at h
  split_ifs at h <;> simp at h <;> omega

theorem DecodeRune_multi (b0 : Byte) (rest : List Byte) {len lo hi : Nat}
    (h : leadClass b0 = some (len, lo, hi)) (h1 : len ≠ 1) :
    DecodeRune (b0 :: rest) = some (codePoint (b0 :: rest), stepLen (b0 :: rest)) := by
  obtain ⟨hlt, hsz, hacc, hlen, -⟩ := first_multi h h1
  have hnas : ¬ first b0 ≥ as := by omega
  unfold DecodeRune
  simp only [List.length_cons, List.getElem?_cons_zero, hsz, hacc, if_neg hnas,
    List.getElem?_cons_succ, Bool.or_eq_true, decide_eq_true_eq, locb, hicb]
  rw [if_neg (by omega)]
  cases rest with
  | nil =>
    obtain ⟨e1, e2⟩ := spec_of_none (wellFormedLen_short1 b0 h h1)
    rw [e1, e2, if_pos (by simp; omega)]
  | cons b1 more =>
    rcases hlen with rfl | rfl | rfl
    · have hw := wellFormedLen_two b0 b1 more h
      obtain ⟨r1, r2, r3, r4⟩ := leadClass_two h
      simp only [List.length_cons, List.getElem?_cons_zero]
      by_cases hb : lo ≤ b1.val ∧ b1.val ≤ hi
      · rw [if_pos hb] at hw
        rw [if_neg (by omega), if_neg (by omega), if_pos (by omega), bits2]
        simp [codePoint, stepLen, hw]
        omega
      · rw [if_neg hb] at hw
        obtain ⟨e1, e2⟩ := spec_of_none hw
        rw [e1, e2, if_neg (by omega), if_pos (by omega)]
    · obtain ⟨r1, r2, r3, r4⟩ := leadClass_three h
      cases more with
      | nil =>
        obtain ⟨e1, e2⟩ := spec_of_none (wellFormedLen_short2 b0 b1 h (Or.inl rfl))
        rw [e1, e2, if_pos (by simp)]
      | cons b2 more =>
        have hw := wellFormedLen_three b0 b1 b2 more h
        simp only [List.length_cons, List.getElem?_cons_zero, List.getElem?_cons_succ]
        by_cases hb : lo ≤ b1.val ∧ b1.val ≤ hi
        · by_cases hc : isCont b2 = true
          · have hc2 := (isCont_iff b2).1 hc
            rw [if_pos ⟨hb.1, hb.2, hc⟩] at hw
            rw [if_neg (by omega), if_neg (by omega), if_neg (by omega), if_neg (by omega),
              if_pos (by omega), bits3]
            simp [codePoint, stepLen, hw]
            omega
          · have hc2 : ¬ (0x80 ≤ b2.val ∧ b2.val ≤ 0xBF) := fun h => hc ((isCont_iff b2).2 h)
            rw [if_neg (fun h => hc h.2.2)] at hw
            obtain ⟨e1, e2⟩ := spec_of_none hw
            rw [e1, e2, if_neg (by omega), if_neg (by omega), if_neg (by omega),
              if_pos (by omega)]
        · rw [if_neg (fun h => hb ⟨h.1, h.2.1⟩)] at hw
          obtain ⟨e1, e2⟩ := spec_of_none hw
          rw [e1, e2, if_neg (by omega), if_pos (by omega)]
    · obtain ⟨r1, r2, r3, r4⟩ := leadClass_four h
      cases more with
      | nil =>
        obtain ⟨e1, e2⟩ := spec_of_none (wellFormedLen_short2 b0 b1 h (Or.inr rfl))
        rw [e1, e2, if_pos (by simp)]
      | cons b2 more =>
        cases more with
        | nil =>
          obtain ⟨e1, e2⟩ := spec_of_none (wellFormedLen_short3 b0 b1 b2 h)
          rw [e1, e2, if_pos (by simp)]
        | cons b3 more =>
          have hw := wellFormedLen_four b0 b1 b2 b3 more h
          simp only [List.length_cons, List.getElem?_cons_zero, List.getElem?_cons_succ]
          by_cases hb : lo ≤ b1.val ∧ b1.val ≤ hi
          · by_cases hc : isCont b2 = true
            · have hc2 := (isCont_iff b2).1 hc
              by_cases hd : isCont b3 = true
              · have hd2 := (isCont_iff b3).1 hd
                rw [if_pos ⟨hb.1, hb.2, hc, hd⟩] at hw
                rw [if_neg (by omega), if_neg (by omega), if_neg (by omega), if_neg (by omega),
                  if_neg (by omega), if_neg (by omega), bits4]
                simp [codePoint, stepLen, hw]
                omega
              · have hd2 : ¬ (0x80 ≤ b3.val ∧ b3.val ≤ 0xBF) :=
                  fun h => hd ((isCont_iff b3).2 h)
                rw [if_neg (fun h => hd h.2.2.2)] at hw
                obtain ⟨e1, e2⟩ := spec_of_none hw
                rw [e1, e2, if_neg (by omega), if_neg (by omega), if_neg (by omega),
                  if_neg (by omega), if_neg (by omega), if_pos (by omega)]
            · have hc2 : ¬ (0x80 ≤ b2.val ∧ b2.val ≤ 0xBF) :=
                fun h => hc ((isCont_iff b2).2 h)
              rw [if_neg (fun h => hc h.2.2.1)] at hw
              obtain ⟨e1, e2⟩ := spec_of_none hw
              rw [e1, e2, if_neg (by omega), if_neg (by omega), if_neg (by omega),
                if_pos (by omega)]
          · rw [if_neg (fun h => hb ⟨h.1, h.2.1⟩)] at hw
            obtain ⟨e1, e2⟩ := spec_of_none hw
            rw [e1, e2, if_neg (by omega), if_pos (by omega)]

theorem DecodeRune_eq (b0 : Byte) (rest : List Byte) :
    DecodeRune (b0 :: rest) = some (codePoint (b0 :: rest), stepLen (b0 :: rest)) := by
  cases h : leadClass b0 with
  | none =>
    have hw : wellFormedLen (b0 :: rest) = none := by simp [wellFormedLen, h]
    obtain ⟨e1, e2⟩ := spec_of_none hw
    rw [DecodeRune_invalid b0 rest h, e1, e2]
  | some c =>
    obtain ⟨len, lo, hi⟩ := c
    by_cases h1 : len = 1
    · subst h1
      have hw : wellFormedLen (b0 :: rest) = some 1 := by simp [wellFormedLen, h]
      rw [DecodeRune_ascii b0 rest (first_one h).2]
      simp [codePoint, stepLen, hw]
    · exact DecodeRune_multi b0 rest h h1

theorem wellFormedLen_bounds {p : List Byte} {k : Nat} (h : wellFormedLen p = some k) :
    1 ≤ k ∧ k ≤ p.length := by
  cases p with
  | nil => simp [wellFormedLen] at h
  | cons b0 rest =>
    cases hc : leadClass b0 with
    | none => simp [wellFormedLen, hc] at h
    | some c =>
      obtain ⟨len, lo, hi⟩ := c
      by_cases h1 : len = 1
      · subst h1
        simp [wellFormedLen, hc] at h
        subst h; simp
      · obtain ⟨-, -, -, hlen, -⟩ := first_multi hc h1
        cases rest with
        | nil => simp [wellFormedLen, hc, h1] at h
        | cons b1 more =>
          simp only [wellFormedLen, hc, if_neg h1] at h
          split at h
          · rename_i hh
            cases h
            simp only [List.length_cons]
            omega
          · cases h

theorem stepLen_pos (p : List Byte) : 1 ≤ stepLen p := by
  unfold stepLen
  cases h : wellFormedLen p with
  | none => simp
  | some k => simpa using (wellFormedLen_bounds h).1

theorem stepLen_le (b0 : Byte) (rest : List Byte) :
    stepLen (b0 :: rest) ≤ rest.length + 1 := by
  unfold stepLen
  cases h : wellFormedLen (b0 :: rest) with
  | none => simp
  | some k => simpa using (wellFormedLen_bounds h).2

theorem charsFrom_skip (k : Nat) (p : List Byte) :
    charsFrom k p = charsFrom 0 (p.drop k) := by
  induction p generalizing k with
  | nil => simp [charsFrom]
  | cons b rest ih =>
    cases k with
    | zero => simp
    | succ k => simp [charsFrom, ih k]

theorem utf8Chars_nil : utf8Chars [] = [] := rfl

theorem utf8Chars_cons (b0 : Byte) (rest : List Byte) :
    utf8Chars (b0 :: rest) =
      codePoint (b0 :: rest) :: utf8Chars ((b0 :: rest).drop (stepLen (b0 :: rest))) := by
  have h1 := stepLen_pos (b0 :: rest)
  unfold utf8Chars
  rw [charsFrom, charsFrom_skip]
  congr 2
  obtain ⟨k, hk⟩ : ∃ k, stepLen (b0 :: rest) = k + 1 := ⟨stepLen (b0 :: rest) - 1, by omega⟩
  rw [hk]; simp

theorem utf8CharCount_nil : utf8CharCount [] = 0 := rfl

theorem utf8CharCount_cons (b0 : Byte) (rest : List Byte) :
    utf8CharCount (b0 :: rest) = 1 + utf8CharCount ((b0 :: rest).drop (stepLen (b0 :: rest))) := by
  unfold utf8CharCount
  rw [utf8Chars_cons, List.length_cons, Nat.add_comm]

theorem drop_facts {α : Type} {p : List α} {i : Nat} {b0 : α} {rest : List α}
    (hd : p.drop i = b0 :: rest) :
    i < p.length ∧ p.length = i + rest.length + 1 ∧ p[i]? = some b0 ∧
      ∀ k, p[i + (k + 1)]? = rest[k]? := by
  have hl : (p.drop i).length = rest.length + 1 := by rw [hd]; simp
  rw [List.length_drop] at hl
  refine ⟨by omega, by omega, ?_, ?_⟩
  · have := List.getElem?_drop (L := p) (i := i) (j := 0)
    rw [hd] at this; simpa using this.symm
  · intro k
    have := List.getElem?_drop (L := p) (i := i) (j := k + 1)
    rw [hd] at this; simpa using this.symm

theorem RuneCountLoop_step (p : List Byte) (fuel i n : Nat) (b0 : Byte) (rest : List Byte)
    (hd : p.drop i = b0 :: rest) :
    RuneCountLoop p (fuel + 1) i n =
      RuneCountLoop p fuel (i + stepLen (b0 :: rest)) (n + 1) := by
  obtain ⟨hi, hlen, hp0, hpk⟩ := drop_facts hd
  have hp1 := hpk 0
  have hp2 := hpk 1
  have hp3 := hpk 2
  simp only [Nat.zero_add] at hp1
  rw [RuneCountLoop]
  simp only [if_pos hi, hp0, RuneSelf, locb, hicb, Bool.or_eq_true, decide_eq_true_eq]
  cases h : leadClass b0 with
  | none =>
    have hw : stepLen (b0 :: rest) = 1 := by simp [stepLen, wellFormedLen, h]
    obtain ⟨hf, hge⟩ := first_none h
    rw [hw, if_neg (by omega), if_pos hf]
  | some c =>
    obtain ⟨len, lo, hi⟩ := c
    by_cases h1 : len = 1
    · subst h1
      have hw : stepLen (b0 :: rest) = 1 := by simp [stepLen, wellFormedLen, h]
      rw [hw, if_pos (first_one h).2]
    · obtain ⟨hlt, hsz, hacc, hl, hge⟩ := first_multi h h1
      have hnx : first b0 ≠ xx := by
        intro hx; rw [hx] at hlt; exact absurd hlt (by decide)
      rw [if_neg (by omega), if_neg hnx, hsz, hacc]
      cases rest with
      | nil =>
        have hw : stepLen [b0] = 1 := by rw [stepLen, wellFormedLen_short1 b0 h h1]; rfl
        rw [hw, if_pos (by simp at hlen; omega)]
      | cons b1 more =>
        simp only [List.getElem?_cons_zero] at hp1
        simp only [List.length_cons] at hlen
        simp only [hp1]
        rcases hl with rfl | rfl | rfl
        · have hw : stepLen (b0 :: b1 :: more) = if lo ≤ b1.val ∧ b1.val ≤ hi then 2 else 1 := by
            rw [stepLen, wellFormedLen_two b0 b1 more h]; split <;> rfl
          rw [hw, if_neg (by omega)]
          by_cases hb : lo ≤ b1.val ∧ b1.val ≤ hi
          · rw [if_neg (by omega), if_pos rfl, if_pos hb]
          · rw [if_pos (by omega), if_neg hb]
        · cases more with
          | nil =>
            have hw : stepLen [b0, b1] = 1 := by
              rw [stepLen, wellFormedLen_short2 b0 b1 h (Or.inl rfl)]; rfl
            rw [hw, if_pos (by simp at hlen; omega)]
          | cons b2 more =>
            simp only [List.getElem?_cons_succ, List.getElem?_cons_zero] at hp2
            simp only [List.length_cons] at hlen
            have hw : stepLen (b0 :: b1 :: b2 :: more) =
                if lo ≤ b1.val ∧ b1.val ≤ hi ∧ isCont b2 = true then 3 else 1 := by
              rw [stepLen, wellFormedLen_three b0 b1 b2 more h]; split <;> rfl
            rw [hw, if_neg (by omega)]
            simp only [hp2]
            by_cases hb : lo ≤ b1.val ∧ b1.val ≤ hi
            · by_cases hc : isCont b2 = true
              · have hc2 := (isCont_iff b2).1 hc
                rw [if_neg (by omega), if_neg (by omega), if_neg (by omega), if_pos trivial,
                  if_pos ⟨hb.1, hb.2, hc⟩]
              · have hc2 : ¬ (0x80 ≤ b2.val ∧ b2.val ≤ 0xBF) :=
                  fun h => hc ((isCont_iff b2).2 h)
                rw [if_neg (by omega), if_neg (by omega), if_pos (by omega),
                  if_neg (fun h => hc h.2.2)]
            · rw [if_pos (by omega), if_neg (fun h => hb ⟨h.1, h.2.1⟩)]
        · cases more with
          | nil =>
            have hw : stepLen [b0, b1] = 1 := by
              rw [stepLen, wellFormedLen_short2 b0 b1 h (Or.inr rfl)]; rfl
            rw [hw, if_pos (by simp at hlen; omega)]
          | cons b2 more =>
            cases more with
            | nil =>
              have hw : stepLen [b0, b1, b2] = 1 := by
                rw [stepLen, wellFormedLen_short3 b0 b1 b2 h]; rfl
              rw [hw, if_pos (by simp at hlen; omega)]
            | cons b3 more =>
              simp only [List.getElem?_cons_succ, List.getElem?_cons_zero] at hp2 hp3
              simp only [List.length_cons] at hlen
              have hw : stepLen (b0 :: b1 :: b2 :: b3 :: more) =
                  if lo ≤ b1.val ∧ b1.val ≤ hi ∧ isCont b2 = true ∧ isCont b3 = true
                  then 4 else 1 := by
                rw [stepLen, wellFormedLen_four b0 b1 b2 b3 more h]; split <;> rfl
              rw [hw, if_neg (by omega)]
              simp only [hp2, hp3]
              by_cases hb : lo ≤ b1.val ∧ b1.val ≤ hi
              · by_cases hc : isCont b2 = true
                · have hc2 := (isCont_iff b2).1 hc
                  by_cases hd : isCont b3 = true
                  · have hd2 := (isCont_iff b3).1 hd
                    rw [if_neg (by omega), if_neg (by omega), if_neg (by omega),
                      if_neg (by omega), if_neg (by omega), if_pos ⟨hb.1, hb.2, hc, hd⟩]
                  · have hd2 : ¬ (0x80 ≤ b3.val ∧ b3.val ≤ 0xBF) :=
                      fun h => hd ((isCont_iff b3).2 h)
                    rw [if_neg (by omega), if_neg (by omega), if_neg (by omega),
                      if_neg (by omega), if_pos (by omega), if_neg (fun h => hd h.2.2.2)]
                · have hc2 : ¬ (0x80 ≤ b2.val ∧ b2.val ≤ 0xBF) :=
                    fun h => hc ((isCont_iff b2).2 h)
                  rw [if_neg (by omega), if_neg (by omega), if_pos (by omega),
                    if_neg (fun h => hc h.2.2.1)]
              · rw [if_pos (by omega), if_neg (fun h => hb ⟨h.1, h.2.1⟩)]

theorem drop_cons_of_lt {α : Type} {p : List α} {i : Nat} (h : i < p.length) :
    ∃ b0 rest, p.drop i = b0 :: rest := by
  cases hd : p.drop i with
  | nil =>
    have := congrArg List.length hd
    rw [List.length_drop] at this
    simp at this; omega
  | cons b0 rest => exact ⟨b0, rest, rfl⟩

theorem RuneCountLoop_eq (p : List Byte) :
    ∀ fuel i n, p.length - i ≤ fuel →
      RuneCountLoop p fuel i n = some (n + utf8CharCount (p.drop i)) := by
  intro fuel
  induction fuel with
  | zero =>
    intro i n h
    have hi : p.length ≤ i := by omega
    rw [RuneCountLoop, if_neg (by omega), List.drop_of_length_le hi, utf8CharCount_nil]
    rfl
  | succ fuel ih =>
    intro i n h
    by_cases hi : i < p.length
    · obtain ⟨b0, rest, hd⟩ := drop_cons_of_lt hi
      have hpos := stepLen_pos (b0 :: rest)
      rw [RuneCountLoop_step p fuel i n b0 rest hd, ih _ _ (by omega), hd,
        utf8CharCount_cons b0 rest, ← hd, List.drop_drop]
      congr 1
      omega
    · rw [RuneCountLoop, if_neg hi, List.drop_of_length_le (by omega), utf8CharCount_nil]
      rfl

theorem RuneCount_eq (p : List Byte) : RuneCount p = some (utf8CharCount p) := by
  rw [RuneCount, RuneCountLoop_eq p _ 0 0 (by omega)]
  simp

set_option maxRecDepth 100000 in
theorem IsSpace_latin1 : ∀ r : Fin 256, IsSpace r.val = isWhiteSpace r.val := by
  decide

theorem IsSpace_eq (r : Nat) : IsSpace r = isWhiteSpace r := by
  by_cases h : r ≤ 0xFF
  · exact IsSpace_latin1 ⟨r, by omega⟩
  · have h1 : ¬ r ≤ MaxLatin1 := h
    unfold IsSpace
    rw [if_neg h1]
    clear h1
    unfold isExcludingLatin isWhiteSpace
    simp only [White_Space_R16, White_Space_LatinOffset, List.length_cons, List.length_nil,
      List.drop_succ_cons, List.drop_zero, is16]
    by_cases h2 : r ≤ 0x3000
    · have h3 : r % 2 ^ 16 = r := Nat.mod_eq_of_lt (by omega)
      rw [h3]
      clear h3
      simp [h2]
      rw [Bool.eq_iff_iff]
      simp only [Bool.and_eq_true, Bool.or_eq_true, decide_eq_true_eq, Bool.not_eq_true',
        decide_eq_false_iff_not, beq_iff_eq]
      split_ifs <;>
        simp only [Bool.and_eq_true, Bool.or_eq_true, decide_eq_true_eq, Bool.not_eq_true',
          decide_eq_false_iff_not, beq_iff_eq] <;>
        constructor <;> intro _ <;> omega
    · simp [h2]
      omega

set_option maxRecDepth 100000 in
theorem asciiSpace_spec : ∀ b : Byte,
    (asciiSpace b = 0 ∨ asciiSpace b = 1) ∧
      (b.val < 0x80 → (asciiSpace b = 1 ↔ isWhiteSpace b.val = true)) := by
  decide

theorem land_not_cases (w c : Nat) (hw : w = 0 ∨ w = 1) (hc : c = 0 ∨ c = 1) :
    w &&& (c ^^^ (2 ^ 64 - 1)) = if w = 1 ∧ c = 0 then 1 else 0 := by
  rcases hw with rfl | rfl <;> rcases hc with rfl | rfl <;> decide

theorem getElem?_drop_cons {α : Type} {s : List α} {i : Nat} {b : α} (h : s[i]? = some b) :
    ∃ rest, s.drop i = b :: rest := by
  have hi : i < s.length := by
    by_contra hc
    rw [List.getElem?_eq_none (by omega)] at h
    cases h
  obtain ⟨b0, rest, hd⟩ := drop_cons_of_lt hi
  have := (drop_facts hd).2.2.1
  rw [h] at this
  cases this
  exact ⟨rest, hd⟩

theorem decode_ascii_spec (b : Byte) (rest : List Byte) (h : b.val < 0x80) :
    codePoint (b :: rest) = b.val ∧ stepLen (b :: rest) = 1 := by
  have h1 := DecodeRune_eq b rest
  rw [DecodeRune_ascii b rest h] at h1
  simp only [Option.some.injEq, Prod.mk.injEq] at h1
  exact ⟨h1.1.symm, h1.2.symm⟩

theorem FieldsFunc_dec (b : Byte) (rest : List Byte) :
    (if b.val ≥ RuneSelf then DecodeRune (b :: rest) else some (b.val, 1)) =
      some (codePoint (b :: rest), stepLen (b :: rest)) := by
  by_cases h : b.val ≥ RuneSelf
  · rw [if_pos h, DecodeRune_eq]
  · have h' : b.val < 0x80 := by simpa [RuneSelf] using h
    obtain ⟨e1, e2⟩ := decode_ascii_spec b rest h'
    rw [if_neg h, e1, e2]

theorem FieldsFuncLoop_eq (s : List Byte) :
    ∀ fuel i (start : Int) (spans : List (Int × Int)), s.length - i ≤ fuel →
      ∃ start' spans', FieldsFuncLoop s IsSpace fuel i start spans = some (start', spans') ∧
        spans'.length + (if start' ≥ 0 then 1 else 0) =
          spans.length + (if start ≥ 0 then 1 else 0) +
            wordRuns (decide (start < 0)) (utf8Chars (s.drop i)) := by
  intro fuel
  induction fuel with
  | zero =>
    intro i start spans h
    have hi : s.length ≤ i := by omega
    refine ⟨start, spans, ?_, ?_⟩
    · rw [FieldsFuncLoop, if_neg (by omega)]
    · rw [List.drop_of_length_le hi, utf8Chars_nil]; simp [wordRuns]
  | succ fuel ih =>
    intro i start spans h
    rw [FieldsFuncLoop]
    cases hb : s[i]? with
    | none =>
      have hi : s.length ≤ i := by
        by_contra hc
        rw [List.getElem?_eq_getElem (by omega)] at hb
        cases hb
      refine ⟨start, spans, rfl, ?_⟩
      rw [List.drop_of_length_le hi, utf8Chars_nil]; simp [wordRuns]
    | some b =>
      obtain ⟨rest, hd⟩ := getElem?_drop_cons hb
      have hlen := (drop_facts hd).2.1
      have hpos := stepLen_pos (b :: rest)
      have hdd : s.drop (i + stepLen (b :: rest)) = (b :: rest).drop (stepLen (b :: rest)) := by
        rw [← hd, List.drop_drop]
      simp only [hd, FieldsFunc_dec]
      rw [utf8Chars_cons, wordRuns, ← hdd, IsSpace_eq]
      by_cases hsp : isWhiteSpace (codePoint (b :: rest)) = true
      · rw [if_pos hsp]
        by_cases hst : start ≥ 0
        · rw [if_pos hst]
          obtain ⟨st', sp', e, hq⟩ := ih (i + stepLen (b :: rest)) (-1) (spans ++ [(start, (i : Int))])
            (by omega)
          refine ⟨st', sp', e, ?_⟩
          rw [hq, hsp]
          have : decide (start < 0) = false := by simp; omega
          have h0 : (0 : Int) ≤ start := hst
          simp [this, h0]
        · rw [if_neg hst]
          obtain ⟨st', sp', e, hq⟩ := ih (i + stepLen (b :: rest)) start spans (by omega)
          refine ⟨st', sp', e, ?_⟩
          rw [hq, hsp]
          have : decide (start < 0) = true := by simp; omega
          simp [this, hst]
      · rw [if_neg hsp]
        have hsp' : isWhiteSpace (codePoint (b :: rest)) = false := by simpa using hsp
        by_cases hst : start < 0
        · rw [if_pos hst]
          obtain ⟨st', sp', e, hq⟩ := ih (i + stepLen (b :: rest)) (i : Int) spans (by omega)
          refine ⟨st', sp', e, ?_⟩
          rw [hq, hsp']
          have h1 : decide (start < 0) = true := by simp; omega
          have h2 : decide ((i : Int) < 0) = false := by simp
          have h3 : ¬ start ≥ 0 := by omega
          simp [h1, h2, h3]
          omega
        · rw [if_neg hst]
          obtain ⟨st', sp', e, hq⟩ := ih (i + stepLen (b :: rest)) start spans (by omega)
          refine ⟨st', sp', e, ?_⟩
          rw [hq, hsp']
          have h1 : decide (start < 0) = false := by simp; omega
          simp [h1]

theorem or_lt_128 (x y : Nat) (h : x ||| y < 128) : x < 128 ∧ y < 128 := by
  have key : ∀ i, i ≥ 7 → (x ||| y).testBit i = false := by
    intro i hi
    apply Nat.testBit_lt_two_pow
    calc x ||| y < 2 ^ 7 := h
      _ ≤ 2 ^ i := Nat.pow_le_pow_right (by norm_num) hi
  constructor
  · apply Nat.lt_pow_two_of_testBit (n := 7)
    intro i hi
    have := key i hi
    rw [Nat.testBit_or] at this
    simpa using (Bool.or_eq_false_iff.mp this).1
  · apply Nat.lt_pow_two_of_testBit (n := 7)
    intro i hi
    have := key i hi
    rw [Nat.testBit_or] at this
    simpa using (Bool.or_eq_false_iff.mp this).2

theorem FieldsCount_setBits (l : List Byte) :
    ∀ st : Nat × Nat × Nat,
      (l.foldl
        (fun (st : Nat × Nat × Nat) (r : Byte) =>
          (st.1 + (st.2.1 &&& (asciiSpace r ^^^ (2 ^ 64 - 1))), asciiSpace r, st.2.2 ||| r.val))
        st).2.2 < 128 → st.2.2 < 128 ∧ ∀ b ∈ l, b.val < 128 := by
  induction l with
  | nil => intro st h; exact ⟨h, by simp⟩
  | cons b rest ih =>
    intro st h
    rw [List.foldl_cons] at h
    obtain ⟨h1, h2⟩ := ih _ h
    obtain ⟨h3, h4⟩ := or_lt_128 _ _ h1
    refine ⟨h3, ?_⟩
    intro c hc
    rcases List.mem_cons.mp hc with rfl | hc
    · exact h4
    · exact h2 c hc

theorem utf8Chars_ascii_cons (b : Byte) (rest : List Byte) (h : b.val < 0x80) :
    utf8Chars (b :: rest) = b.val :: utf8Chars rest := by
  obtain ⟨e1, e2⟩ := decode_ascii_spec b rest h
  rw [utf8Chars_cons, e1, e2]
  simp

theorem FieldsCount_n (l : List Byte) (hl : ∀ b ∈ l, b.val < 0x80) :
    ∀ st : Nat × Nat × Nat, (st.2.1 = 0 ∨ st.2.1 = 1) →
      (l.foldl
        (fun (st : Nat × Nat × Nat) (r : Byte) =>
          (st.1 + (st.2.1 &&& (asciiSpace r ^^^ (2 ^ 64 - 1))), asciiSpace r, st.2.2 ||| r.val))
        st).1 = st.1 + wordRuns (decide (st.2.1 = 1)) (utf8Chars l) := by
  induction l with
  | nil => intro st _; simp [utf8Chars_nil, wordRuns]
  | cons b rest ih =>
    intro st hw
    have hb : b.val < 0x80 := hl b (List.mem_cons_self _ _)
    obtain ⟨hc, hsp⟩ := asciiSpace_spec b
    have hsp := hsp hb
    rw [List.foldl_cons, ih (fun c hc => hl c (List.mem_cons_of_mem _ hc)) _ hc,
      utf8Chars_ascii_cons b rest hb, wordRuns, land_not_cases _ _ hw hc]
    dsimp only
    have e : decide (asciiSpace b = 1) = isWhiteSpace b.val := by
      rw [Bool.eq_iff_iff]; simpa using hsp
    rw [e]
    rcases hw with hw | hw <;> rcases hc with hc | hc <;>
      cases hws : isWhiteSpace b.val <;> simp_all
    omega

theorem wordRuns_split (cs : List Nat) :
    wordRuns true cs = ((cs.splitOnP isWhiteSpace).filter (fun piece => !piece.isEmpty)).length ∧
    wordRuns false cs =
      (((cs.splitOnP isWhiteSpace).tail).filter (fun piece => !piece.isEmpty)).length := by
  induction cs with
  | nil => simp [wordRuns, List.splitOnP_nil]
  | cons x xs ih =>
    obtain ⟨ih1, ih2⟩ := ih
    rw [List.splitOnP_cons]
    cases hx : isWhiteSpace x with
    | true =>
      simp only [wordRuns, hx, if_true]
      simp [ih1]
    | false =>
      obtain ⟨h, T, hS⟩ : ∃ h T, xs.splitOnP isWhiteSpace = h :: T := by
        cases hs : xs.splitOnP isWhiteSpace with
        | nil => exact absurd hs (List.splitOnP_ne_nil _ xs)
        | cons h T => exact ⟨h, T, rfl⟩
      rw [hS] at ih2
      simp only [wordRuns, hx, hS]
      simp [List.modifyHead, ih2]
      omega

theorem wordRuns_words (p : List Byte) : wordRuns true (utf8Chars p) = wordCount p :=
  (wordRuns_split (utf8Chars p)).1

theorem FieldsCount_spec (s : List Byte) (h : (FieldsCount s).2.2 < 128) :
    (∀ b ∈ s, b.val < 0x80) ∧ (FieldsCount s).1 = wordCount s := by
  have h1 := (FieldsCount_setBits s (0, 1, 0) h).2
  refine ⟨h1, ?_⟩
  have := FieldsCount_n s h1 (0, 1, 0) (Or.inr rfl)
  rw [← wordRuns_words]
  simpa using this

theorem getElem?_none_le {α : Type} {s : List α} {i : Nat} (h : s[i]? = none) :
    s.length ≤ i := by
  by_contra hc
  rw [List.getElem?_eq_getElem (by omega)] at h
  cases h

theorem mem_of_getElem? {α : Type} {s : List α} {i : Nat} {b : α} (h : s[i]? = some b) :
    b ∈ s := by
  obtain ⟨hi, rfl⟩ := List.getElem?_eq_some.mp h
  exact List.getElem_mem _

theorem skipSpaces_spec (s : List Byte) (hs : ∀ b ∈ s, b.val < 0x80) :
    ∀ fuel i, s.length - i ≤ fuel →
      i ≤ skipSpaces s fuel i ∧
      (∀ b, s[skipSpaces s fuel i]? = some b → asciiSpace b = 0) ∧
      wordRuns true (utf8Chars (s.drop (skipSpaces s fuel i))) =
        wordRuns true (utf8Chars (s.drop i)) := by
  intro fuel
  induction fuel with
  | zero =>
    intro i h
    have hi : s.length ≤ i := by omega
    refine ⟨Nat.le_refl _, ?_, rfl⟩
    intro b hb
    rw [skipSpaces, List.getElem?_eq_none hi] at hb
    cases hb
  | succ fuel ih =>
    intro i h
    cases hb : s[i]? with
    | none =>
      have e : skipSpaces s (fuel + 1) i = i := by rw [skipSpaces, hb]
      rw [e]
      exact ⟨Nat.le_refl _, (by intro b hb'; rw [hb] at hb'; cases hb'), rfl⟩
    | some b =>
      by_cases hsp : asciiSpace b ≠ 0
      · have e : skipSpaces s (fuel + 1) i = skipSpaces s fuel (i + 1) := by
          rw [skipSpaces, hb]; dsimp only; rw [if_pos hsp]
        rw [e]
        obtain ⟨h1, h2, h3⟩ := ih (i + 1) (by omega)
        refine ⟨by omega, h2, ?_⟩
        rw [h3]
        obtain ⟨rest, hd⟩ := getElem?_drop_cons hb
        have hb7 := hs b (mem_of_getElem? hb)
        have hr : s.drop (i + 1) = rest := by
          rw [← List.drop_drop, hd]; rfl
        obtain ⟨hc, hsp2⟩ := asciiSpace_spec b
        have hws : isWhiteSpace b.val = true := (hsp2 hb7).1 (by omega)
        rw [hd, hr, utf8Chars_ascii_cons b rest hb7, wordRuns, hws]
        simp
      · have e : skipSpaces s (fuel + 1) i = i := by
          rw [skipSpaces, hb]; dsimp only; rw [if_neg hsp]
        rw [e]
        refine ⟨Nat.le_refl _, ?_, rfl⟩
        intro c hc
        rw [hb] at hc
        cases hc
        simpa using hsp

theorem FieldsAsciiLoop_spec (s : List Byte) (hs : ∀ b ∈ s, b.val < 0x80) :
    ∀ fuel i fs (a : List (List Byte)) na, s.length - i ≤ fuel → fs ≤ i →
      (fs = i → ∀ b, s[i]? = some b → asciiSpace b = 0) →
      na + (if fs < i then 1 + wordRuns false (utf8Chars (s.drop i))
            else wordRuns true (utf8Chars (s.drop i))) ≤ a.length →
      ∃ a' na' fs', FieldsAsciiLoop s fuel i fs a na = some (a', na', fs') ∧
        a'.length = a.length ∧ (fs' < s.length → na' < a'.length) := by
  intro fuel
  induction fuel with
  | zero =>
    intro i fs a na h hfs _ hR
    have hi : s.length ≤ i := by omega
    refine ⟨a, na, fs, by rw [FieldsAsciiLoop, if_neg (by omega)], rfl, ?_⟩
    intro hlt
    rw [if_pos (by omega)] at hR
    omega
  | succ fuel ih =>
    intro i fs a na h hfs hstart hR
    cases hb : s[i]? with
    | none =>
      have hi := getElem?_none_le hb
      refine ⟨a, na, fs, by rw [FieldsAsciiLoop, hb], rfl, ?_⟩
      intro hlt
      rw [if_pos (by omega)] at hR
      omega
    | some b =>
      obtain ⟨rest, hd⟩ := getElem?_drop_cons hb
      have hb7 := hs b (mem_of_getElem? hb)
      have hlen := (drop_facts hd).2.1
      have hr : s.drop (i + 1) = rest := by
        rw [← List.drop_drop, hd]; rfl
      obtain ⟨hc, hsp2⟩ := asciiSpace_spec b
      have hsp2 := hsp2 hb7
      rw [hd, utf8Chars_ascii_cons b rest hb7, wordRuns, wordRuns] at hR
      by_cases hsp : asciiSpace b = 0
      · have hws : isWhiteSpace b.val = false := by
          cases hw : isWhiteSpace b.val with
          | false => rfl
          | true => have := hsp2.2 hw; omega
        have e : FieldsAsciiLoop s (fuel + 1) i fs a na = FieldsAsciiLoop s fuel (i + 1) fs a na := by
          rw [FieldsAsciiLoop, hb]; dsimp only; rw [if_pos hsp]
        rw [e]
        apply ih (i + 1) fs a na (by omega) (by omega) (by intro hh; omega)
        rw [if_pos (by omega), hr]
        rw [hws] at hR
        by_cases hlt : fs < i
        · rw [if_pos hlt] at hR; simpa using hR
        · rw [if_neg hlt] at hR; simpa using hR
      · have hws : isWhiteSpace b.val = true := hsp2.1 (by omega)
        have hlt : fs < i := by
          rcases Nat.lt_or_ge fs i with h1 | h1
          · exact h1
          · exact absurd (hstart (by omega) b hb) hsp
        rw [if_pos hlt, hws] at hR
        simp only [Bool.not_true, Bool.and_false, Bool.false_eq_true, if_false, Nat.zero_add] at hR
        have hna : na < a.length := by omega
        have hset : setAt a na (slice s fs i) = some (a.set na (slice s fs i)) := by
          simp [setAt, hna]
        obtain ⟨k1, k2, k3⟩ := skipSpaces_spec s hs s.length (i + 1) (by omega)
        have e : FieldsAsciiLoop s (fuel + 1) i fs a na =
            FieldsAsciiLoop s fuel (skipSpaces s s.length (i + 1)) (skipSpaces s s.length (i + 1))
              (a.set na (slice s fs i)) (na + 1) := by
          rw [FieldsAsciiLoop, hb]; dsimp only; rw [if_neg hsp, hset]
        rw [e]
        obtain ⟨a', na', fs', r1, r2, r3⟩ := ih (skipSpaces s s.length (i + 1))
          (skipSpaces s s.length (i + 1)) (a.set na (slice s fs i)) (na + 1) (by omega)
          (Nat.le_refl _) (fun _ => k2)
          (by rw [if_neg (by omega), k3, hr, List.length_set]; omega)
        exact ⟨a', na', fs', r1, by rw [r2, List.length_set], r3⟩

theorem FieldsFunc_length (s : List Byte) :
    ∃ fields, FieldsFunc s IsSpace = some fields ∧ fields.length = wordCount s := by
  obtain ⟨st, sp, e, hq⟩ := FieldsFuncLoop_eq s s.length 0 (-1) [] (by omega)
  rw [FieldsFunc, e]
  refine ⟨_, rfl, ?_⟩
  simp only [List.length_map]
  simp at hq
  by_cases hst : st ≥ 0
  · rw [if_pos hst, List.length_append, ← wordRuns_words]
    rw [if_pos hst] at hq
    simpa using hq
  · rw [if_neg hst, ← wordRuns_words]
    rw [if_neg hst] at hq
    simpa using hq

theorem Fields_length (s : List Byte) :
    ∃ fields, Fields s = some fields ∧ fields.length = wordCount s := by
  unfold Fields
  by_cases hbits : (FieldsCount s).2.2 ≥ RuneSelf
  · simp only [hbits, if_true]
    exact FieldsFunc_length s
  · simp only [hbits, if_false]
    obtain ⟨hs, hn⟩ := FieldsCount_spec s (by simpa [RuneSelf] using hbits)
    obtain ⟨k1, k2, k3⟩ := skipSpaces_spec s hs s.length 0 (by omega)
    obtain ⟨a', na', fs', r1, r2, r3⟩ := FieldsAsciiLoop_spec s hs (s.length + 1)
      (skipSpaces s s.length 0) (skipSpaces s s.length 0)
      (List.replicate (FieldsCount s).1 []) 0 (by omega) (Nat.le_refl _) (fun _ => k2)
      (by rw [if_neg (by omega), k3, List.length_replicate, hn, ← wordRuns_words]; simp)
    rw [r1]
    dsimp only
    rw [List.length_replicate, hn] at r2
    by_cases hlt : fs' < s.length
    · rw [if_pos hlt]
      refine ⟨a'.set na' (slice s fs' s.length), by simp [setAt, r3 hlt], ?_⟩
      rw [List.length_set, r2]
    · rw [if_neg hlt]
      exact ⟨a', rfl, r2⟩

/-! ## Lemmas: the counting engine and the handlers -/

set_option maxRecDepth 100000 in
theorem stringOfByte_newline : ∀ b : Byte, stringOfByte b = [0x0A] ↔ b = 0x0A := by
  decide

theorem countLines_foldl (l : List Byte) :
    ∀ n, l.foldl (fun counter b => if stringOfByte b = [0x0A] then counter + 1 else counter) n
      = n + l.count 0x0A := by
  induction l with
  | nil => intro n; simp
  | cons b rest ih =>
    intro n
    rw [List.foldl_cons, ih]
    by_cases hb : b = 0x0A
    · subst hb
      rw [if_pos ((stringOfByte_newline _).2 rfl), List.count_cons_self]
      omega
    · rw [if_neg (fun h => hb ((stringOfByte_newline b).1 h)),
        List.count_cons_of_ne (fun h => hb h.symm)]

theorem countLines_eq (content : List Byte) : countLines content = content.count 0x0A := by
  rw [countLines, countLines_foldl]; simp

theorem RunesLoop_chars :
    ∀ fuel (s : List Byte) (t : List Nat) (i : Nat), s.length ≤ fuel →
      i + utf8CharCount s ≤ t.length →
      RunesLoop fuel s t i = some (t.take i ++ utf8Chars s ++ t.drop (i + utf8CharCount s)) := by
  intro fuel
  induction fuel with
  | zero =>
    intro s t i h _
    have : s = [] := List.length_eq_zero.mp (by omega)
    subst this
    simp [RunesLoop, utf8Chars_nil, utf8CharCount_nil]
  | succ fuel ih =>
    intro s t i h hc
    cases s with
    | nil => simp [RunesLoop, utf8Chars_nil, utf8CharCount_nil]
    | cons b0 rest =>
      have hr := DecodeRune_eq b0 rest
      have hpos := stepLen_pos (b0 :: rest)
      rw [utf8CharCount_cons] at hc
      have hi : i < t.length := by omega
      have hset : setAt t i (codePoint (b0 :: rest)) = some (t.set i (codePoint (b0 :: rest))) := by
        simp [setAt, hi]
      have hrec := ih ((b0 :: rest).drop (stepLen (b0 :: rest))) (t.set i (codePoint (b0 :: rest)))
        (i + 1)
        (by rw [List.length_drop]; simp only [List.length_cons] at h ⊢; omega)
        (by rw [List.length_set]; omega)
      rw [RunesLoop]
      simp only [List.length_cons, Nat.zero_lt_succ, if_true, hr, hset]
      rw [hrec, utf8Chars_cons b0 rest, utf8CharCount_cons b0 rest]
      congr 1
      have e1 : (t.set i (codePoint (b0 :: rest))).take (i + 1) = t.take i ++ [codePoint (b0 :: rest)] := by
        rw [List.set_eq_take_append_cons_drop, if_pos hi, List.take_append_eq_append_take]
        simp [List.length_take, Nat.min_eq_left (Nat.le_of_lt hi)]
      have e2 : ∀ k, (t.set i (codePoint (b0 :: rest))).drop (i + 1 + k) = t.drop (i + 1 + k) := by
        intro k
        exact List.drop_set_of_lt _ _ (by omega)
      rw [e1, e2]
      simp [Nat.add_assoc]

theorem Runes_chars (s : List Byte) : Runes s = some (utf8Chars s) := by
  rw [Runes, RuneCount_eq]
  dsimp only
  rw [RunesLoop_chars s.length s _ 0 (Nat.le_refl _) (by simp)]
  simp [utf8CharCount]

theorem mem_kinds (r : String) : r ∈ kinds ↔ r = "c" ∨ r = "l" ∨ r = "w" ∨ r = "m" := by
  simp [kinds]

theorem countLoop_step (content : List Byte) (r : String) (rest : List String) (acc : List Nat)
    (h : r ∈ kinds) :
    countLoop content (r :: rest) acc = countLoop content rest (acc ++ [unitCount content r]) := by
  rcases (mem_kinds r).1 h with rfl | rfl | rfl | rfl
  · simp [countLoop, unitCount]
  · simp [countLoop, unitCount, countLines_eq]
  · obtain ⟨fields, hf, hl⟩ := Fields_length content
    simp [countLoop, unitCount, hf, hl]
  · simp [countLoop, unitCount, Runes_chars, utf8CharCount]

theorem countLoop_unknown (content : List Byte) (x : String) (rest : List String) (acc : List Nat)
    (h : x ∉ kinds) :
    countLoop content (x :: rest) acc = some ([], some (unknownFlagError x)) := by
  have h' : ¬ (x = "c" ∨ x = "l" ∨ x = "w" ∨ x = "m") := fun hh => h ((mem_kinds x).2 hh)
  simp only [not_or] at h'
  obtain ⟨h1, h2, h3, h4⟩ := h'
  simp [countLoop, h1, h2, h3, h4]

theorem countLoop_valid (content : List Byte) :
    ∀ (R : List String) (acc : List Nat), (∀ r ∈ R, r ∈ kinds) →
      countLoop content R acc = some (acc ++ R.map (unitCount content), none) := by
  intro R
  induction R with
  | nil => intro acc _; simp [countLoop]
  | cons r rest ih =>
    intro acc h
    rw [countLoop_step content r rest acc (h r (List.mem_cons_self _ _)),
      ih _ (fun x hx => h x (List.mem_cons_of_mem _ hx))]
    simp

theorem countLoop_invalid (content : List Byte) (x : String) (post : List String)
    (hx : x ∉ kinds) :
    ∀ (pre : List String) (acc : List Nat), (∀ r ∈ pre, r ∈ kinds) →
      countLoop content (pre ++ x :: post) acc = some ([], some (unknownFlagError x)) := by
  intro pre
  induction pre with
  | nil => intro acc _; exact countLoop_unknown content x post acc hx
  | cons r rest ih =>
    intro acc h
    rw [List.cons_append, countLoop_step content r _ acc (h r (List.mem_cons_self _ _)),
      ih _ (fun y hy => h y (List.mem_cons_of_mem _ hy))]

theorem count_valid (content : List Byte) (R : List String) (h : ∀ r ∈ R, r ∈ kinds) :
    count content R = some (R.map (unitCount content), none) := by
  rw [count, countLoop_valid content R [] h]; simp

theorem split_first_unknown :
    ∀ R : List String, (∃ r ∈ R, r ∉ kinds) →
      ∃ pre x post, R = pre ++ x :: post ∧ (∀ r ∈ pre, r ∈ kinds) ∧ x ∉ kinds := by
  intro R
  induction R with
  | nil => intro ⟨r, hr, _⟩; cases hr
  | cons a rest ih =>
    intro ⟨r, hr, hk⟩
    by_cases ha : a ∈ kinds
    · have : ∃ r ∈ rest, r ∉ kinds := by
        rcases List.mem_cons.mp hr with rfl | hr'
        · exact absurd ha hk
        · exact ⟨r, hr', hk⟩
      obtain ⟨pre, x, post, e, hp, hx⟩ := ih this
      refine ⟨a :: pre, x, post, by rw [e]; rfl, ?_, hx⟩
      intro y hy
      rcases List.mem_cons.mp hy with rfl | hy'
      · exact ha
      · exact hp y hy'
    · exact ⟨[], a, rest, rfl, by simp, ha⟩

theorem digitChar_not_bracket : ∀ k, k < 10 → isBracket (Nat.digitChar k) = false := by
  intro k hk
  interval_cases k <;> decide

theorem toDigitsCore_not_bracket :
    ∀ (fuel n : Nat) (ds : List Char), (∀ c ∈ ds, isBracket c = false) →
      ∀ c ∈ Nat.toDigitsCore 10 fuel n ds, isBracket c = false := by
  intro fuel
  induction fuel with
  | zero => intro n ds h; simpa [Nat.toDigitsCore] using h
  | succ fuel ih =>
    intro n ds h
    have hd : isBracket (Nat.digitChar (n % 10)) = false :=
      digitChar_not_bracket _ (Nat.mod_lt _ (by norm_num))
    have hds : ∀ c ∈ Nat.digitChar (n % 10) :: ds, isBracket c = false := by
      intro c hc
      rcases List.mem_cons.mp hc with rfl | hc
      · exact hd
      · exact h c hc
    rw [Nat.toDigitsCore]
    split
    · exact hds
    · exact ih _ _ hds

theorem fmtD_not_bracket (n : Nat) : ∀ c ∈ (fmtD n).data, isBracket c = false := by
  have := toDigitsCore_not_bracket (n + 1) n [] (by simp)
  simpa [fmtD, Nat.repr, Nat.toDigits, List.asString] using this

theorem trim_brackets (m : List Char) (h : ∀ c ∈ m, isBracket c = false) :
    Trim (String.mk ('[' :: m ++ [']'])) "[]" = String.mk m := by
  have hp : (fun c => "[]".data.contains c) = isBracket := rfl
  unfold Trim
  simp only [hp]
  congr 1
  cases m with
  | nil => decide
  | cons x m' =>
    have hx : isBracket x = false := h x (List.mem_cons_self _ _)
    have ho : isBracket '[' = true := by decide
    have hc : isBracket ']' = true := by decide
    have e1 : List.dropWhile isBracket ('[' :: (x :: m') ++ [']']) = x :: m' ++ [']'] := by
      simp [List.dropWhile, ho, hx]
    rw [e1]
    obtain ⟨init, last, hl⟩ : ∃ init last, x :: m' = init ++ [last] := by
      have := List.exists_cons_of_ne_nil (l := (x :: m').reverse) (by simp)
      obtain ⟨b, L, hbl⟩ := this
      exact ⟨L.reverse, b, by rw [← List.reverse_reverse (x :: m'), hbl]; simp⟩
    have hlast : isBracket last = false := h last (by rw [hl]; simp)
    rw [hl]
    simp [List.dropWhile, hc, hlast]

theorem handleFile_ok (w : World) (f : String) (C : List Byte) (R : List String)
    (h : w.files f = .ok C) (hR : ∀ r ∈ R, r ∈ kinds) :
    handleFile w f R = some (w, R.map (unitCount C), none) := by
  simp [handleFile, h, count_valid C R hR]

theorem handleStdin_ok (w : World) (R : List String)
    (h : w.stdinErr = none) (hR : ∀ r ∈ R, r ∈ kinds) :
    handleStdin w R = some ({ w with stdin := [] }, R.map (unitCount w.stdin), none) := by
  simp [handleStdin, readAllStdin, h, count_valid w.stdin R hR]

theorem filename_eq (args : List String) :
    (if args.length > 0 then args.getD 0 "" else "") = args.headD "" := by
  cases args <;> simp

theorem trim_sprint3 (a b c : Nat) :
    Trim (Sprint [a, b, c]) "[]" = fmtD a ++ " " ++ fmtD b ++ " " ++ fmtD c := by
  have e : Sprint [a, b, c] =
      String.mk ('[' :: ((fmtD a).data ++ ' ' :: ((fmtD b).data ++ ' ' :: (fmtD c).data)) ++ [']']) := by
    apply String.ext
    simp [Sprint, String.intercalate, String.intercalate.go]
  rw [e, trim_brackets]
  · apply String.ext
    simp
  · intro x hx
    simp only [List.mem_append, List.mem_cons] at hx
    rcases hx with hx | rfl | hx | rfl | hx
    · exact fmtD_not_bracket a x hx
    · decide
    · exact fmtD_not_bracket b x hx
    · decide
    · exact fmtD_not_bracket c x hx

theorem handleCommands_ok (w : World) (f : String) (C : List Byte)
    (h : Reads w f C) :
    ∃ w', handleCommands w f ["l", "w", "c"] = some (w', none) ∧
      w'.stdout = w.stdout ++
        (fmtD (C.count 0x0A) ++ " " ++ fmtD (wordCount C) ++ " " ++ fmtD C.length ++ " " ++ f) ∧
      w'.stderr = w.stderr := by
  have hk : ∀ r ∈ ["l", "w", "c"], r ∈ kinds := by decide
  unfold Reads at h
  by_cases hf : f.length > 0
  · rw [if_pos hf] at h
    have e : handleCommands w f ["l", "w", "c"] =
        some ({ w with stdout := w.stdout ++ Trim (Sprint (["l", "w", "c"].map (unitCount C))) "[]"
                  ++ " " ++ f }, none) := by
      simp only [handleCommands, hf, if_true, handleFile_ok w f C _ h hk]
    refine ⟨_, e, ?_, rfl⟩
    simp [trim_sprint3, unitCount, String.append_assoc]
  · rw [if_neg hf] at h
    obtain ⟨h1, h2⟩ := h
    subst h1
    have e : handleCommands w f ["l", "w", "c"] =
        some ({ w with stdin := [],
                       stdout := w.stdout ++
                         Trim (Sprint (["l", "w", "c"].map (unitCount w.stdin))) "[]"
                         ++ " " ++ f }, none) := by
      simp only [handleCommands, hf, if_false, handleStdin_ok w _ h2 hk]
    refine ⟨_, e, ?_, rfl⟩
    simp [trim_sprint3, unitCount, String.append_assoc]

/-! ## The properties -/

/-- Claim C1. For every content `C`, `count C ["l"]` succeeds and returns the one-element
list holding the number of bytes of `C` equal to `0x0A`: a count of terminators, so
`"a\nb\nc"` gives 2, `""` gives 0, `"a\n"` gives 1, and a CRLF pair counts once. -/
theorem count_lines :
    (∀ C : List Byte, count C ["l"] = some ([C.count 0x0A], none)) ∧
      count (ascii "a\nb\nc") ["l"] = some ([2], none) ∧
      count (ascii "") ["l"] = some ([0], none) ∧
      count (ascii "a\n") ["l"] = some ([1], none) ∧
      count (ascii "a\r\nb\r\n") ["l"] = some ([2], none) := by
  refine ⟨fun C => ?_, by decide, by decide, by decide, by decide⟩
  rw [count_valid C ["l"] (by simp [kinds])]
  simp [unitCount]

/-- Claim C2. For every content `C`, `count C ["w"]` succeeds and returns the number of
maximal runs of non-white-space characters of `C`, where white space is what
`unicode.IsSpace` accepts (space, tab, newline, carriage return, form feed, vertical tab
and the other `White_Space` characters); `"  hi   there  "` gives 2, `""` and `"\t\n "`
give 0. -/
theorem count_words :
    (∀ C : List Byte, count C ["w"] = some ([wordCount C], none)) ∧
      (∀ r : Nat, unicode.IsSpace r = isWhiteSpace r) ∧
      (∀ c ∈ [0x20, 0x09, 0x0A, 0x0D, 0x0C, 0x0B], isWhiteSpace c = true) ∧
      count (ascii "  hi   there  ") ["w"] = some ([2], none) ∧
      count (ascii "") ["w"] = some ([0], none) ∧
      count (ascii "\t\n ") ["w"] = some ([0], none) := by
  refine ⟨fun C => ?_, IsSpace_eq, by decide, by decide, by decide, by decide⟩
  rw [count_valid C ["w"] (by simp [kinds])]
  simp [unitCount]

/-- Claim C3. For every content `C`, well-formed UTF-8 or not, `count C ["m"]` succeeds
and returns the number of decode steps of `C`: `bytes.Runes` does not panic and yields
one rune per step, the code point of a well-formed sequence whatever its length in
bytes, or U+FFFD for one invalid byte; a single 3-byte character gives 1. -/
theorem count_multibyte_chars :
    (∀ C : List Byte, count C ["m"] = some ([utf8CharCount C], none) ∧
      bytes.Runes C = some (utf8Chars C)) ∧
      (∀ p : List Byte, wellFormedLen p = none → codePoint p = 0xFFFD ∧ stepLen p = 1) ∧
      count [0xE2, 0x82, 0xAC] ["m"] = some ([1], none) ∧
      count [0x61, 0xFF, 0x80, 0xE2, 0x82] ["m"] = some ([5], none) := by
  refine ⟨fun C => ⟨?_, Runes_chars C⟩, fun p h => spec_of_none h, by decide, by decide⟩
  rw [count_valid C ["m"] (by simp [kinds])]
  simp [unitCount]

/-- Claim C4. For every content `C`, the empty one included, `count C ["c"]` succeeds
and returns the one-element list holding the length of `C` in bytes. -/
theorem count_bytes :
    (∀ C : List Byte, count C ["c"] = some ([C.length], none)) ∧
      count [] ["c"] = some ([0], none) := by
  refine ⟨fun C => ?_, by decide⟩
  rw [count_valid C ["c"] (by simp [kinds])]
  simp [unitCount]

/-- Claim C5. For every content `C` and request `R`, `count C R` returns an error if and
only if some element of `R` is not one of `"c"`, `"l"`, `"w"`, `"m"`; it then returns the
`nil` slice, whatever valid kinds precede or follow, and the error names the first
element of `R` that is not a kind; a request of kinds only returns a result and no
error. -/
theorem count_unknown_kind :
    (∀ (C : List Byte) (R : List String),
      ((∃ res e, count C R = some (res, some e)) ↔ ∃ r ∈ R, r ∉ kinds) ∧
      (∀ pre x post, R = pre ++ x :: post → (∀ r ∈ pre, r ∈ kinds) → x ∉ kinds →
        count C R = some ([], some (unknownFlagError x))) ∧
      ((∀ r ∈ R, r ∈ kinds) → ∃ res, count C R = some (res, none))) ∧
      count (ascii "abc") ["c", "x", "l", "y"] =
        some ([], some "error: unknown shorthand flag: \x27x\x27 in -x") := by
  refine ⟨fun C R => ⟨⟨?_, ?_⟩, ?_, ?_⟩, by decide⟩
  · rintro ⟨res, e, h⟩
    by_contra hn
    have hall : ∀ r ∈ R, r ∈ kinds := by
      intro r hr
      by_contra hk
      exact hn ⟨r, hr, hk⟩
    rw [count_valid C R hall] at h
    cases h
  · intro h
    obtain ⟨pre, x, post, e, hp, hx⟩ := split_first_unknown R h
    exact ⟨[], unknownFlagError x, by rw [e, count, countLoop_invalid C x post hx pre [] hp]⟩
  · intro pre x post e hp hx
    rw [e, count, countLoop_invalid C x post hx pre [] hp]
  · intro hall
    exact ⟨_, count_valid C R hall⟩

/-- Claim C6. For every content `C` and every request `R` made of the four kinds only
(empty and repeated kinds included), `count C R` returns a list as long as `R` whose
`i`-th entry is the count that `count C [R[i]]` returns. -/
theorem count_order (C : List Byte) (R : List String) (h : ∀ r ∈ R, r ∈ kinds) :
    ∃ res, count C R = some (res, none) ∧ res.length = R.length ∧
      ∀ i (hi : i < R.length), ∃ c, count C [R[i]] = some ([c], none) ∧ res[i]? = some c := by
  refine ⟨R.map (unitCount C), count_valid C R h, by simp, ?_⟩
  intro i hi
  refine ⟨unitCount C R[i], ?_, by simp [hi]⟩
  rw [count_valid C [R[i]] (by intro r hr; rw [List.mem_singleton.mp hr]; exact h _ (List.getElem_mem _))]
  rfl

/-- Claim C6 at `C = "abc"` and `R = ["c", "c"]`, where the result is `[3, 3]`. -/
theorem count_order_witness :
    (∀ r ∈ ["c", "c"], r ∈ kinds) ∧
      count (ascii "abc") ["c", "c"] = some ([3, 3], none) ∧
      ∃ res, count (ascii "abc") ["c", "c"] = some (res, none) ∧ res.length = ["c", "c"].length ∧
        ∀ i (hi : i < ["c", "c"].length),
          ∃ c, count (ascii "abc") [["c", "c"][i]] = some ([c], none) ∧ res[i]? = some c :=
  ⟨by decide, by decide, count_order (ascii "abc") ["c", "c"] (by decide)⟩

/-- Claim C7. For every content `C` the input resolves to and every file name (the first
argument, or the empty name), `rootRun` with no flag set calls `handleCommands` once
with the request `["l", "w", "c"]` and appends to standard output the single string
`"<lines> <words> <bytes> <f>"`, writing nothing to standard error. -/
theorem rootRun_default (w : World) (args : List String) (C : List Byte)
    (h : Reads w (args.headD "") C) :
    rootRun w noFlags args =
        (match handleCommands w (args.headD "") ["l", "w", "c"] with
          | none => none
          | some (w1, some err) => some (printErr w1 err)
          | some (w1, none) => some w1) ∧
      ∃ w', rootRun w noFlags args = some w' ∧
        w'.stdout = w.stdout ++
          (fmtD (C.count 0x0A) ++ " " ++ fmtD (wordCount C) ++ " " ++ fmtD C.length ++ " " ++
            args.headD "") ∧
        w'.stderr = w.stderr := by
  have hreq : rootRun w noFlags args =
      (match handleCommands w (args.headD "") ["l", "w", "c"] with
        | none => none
        | some (w1, some err) => some (printErr w1 err)
        | some (w1, none) => some w1) := by
    simp only [rootRun, noFlags, flagBlock, filename_eq, Bool.false_eq_true, if_false,
      Bool.or_false, Bool.not_false, if_true]
  obtain ⟨w', e, h1, h2⟩ := handleCommands_ok w (args.headD "") C h
  refine ⟨hreq, w', ?_, h1, h2⟩
  rw [hreq, e]

/-- Claim C7 on the file `f` holding `"one two\nthree\n"`: the output is `"2 3 14 f"`. -/
theorem rootRun_default_witness :
    Reads exampleWorld (["f"].headD "") (ascii "one two\nthree\n") ∧
      (rootRun exampleWorld noFlags ["f"]).map World.stdout = some "2 3 14 f" ∧
      ∃ w', rootRun exampleWorld noFlags ["f"] = some w' ∧
        w'.stdout = exampleWorld.stdout ++
          (fmtD ((ascii "one two\nthree\n").count 0x0A) ++ " " ++
            fmtD (wordCount (ascii "one two\nthree\n")) ++ " " ++
            fmtD (ascii "one two\nthree\n").length ++ " " ++ ["f"].headD "") ∧
        w'.stderr = exampleWorld.stderr :=
  ⟨by unfold Reads; rw [if_pos (by decide)]; rfl, by decide,
    (rootRun_default exampleWorld ["f"] _
      (by unfold Reads; rw [if_pos (by decide)]; rfl)).2⟩

/-- Claim C8 at the flags bytes and lines on the file `g` holding `"a\n"`: `rootRun`
prints `"2 g1 g"`, one piece `"<count> <f>"` per set flag with nothing between them,
where the claim's format `"<c1> <c2> <f>"` is `"2 1 g"`. -/
theorem rootRun_two_flags_output :
    NFlag ⟨true, true, false, false⟩ > 0 ∧
      exampleWorld.files "g" = .ok (ascii "a\n") ∧
      (rootRun exampleWorld ⟨true, true, false, false⟩ ["g"]).map World.stdout = some "2 g1 g" ∧
      claimedFlagsOutput ⟨true, true, false, false⟩ (ascii "a\n") "g" = "2 1 g" ∧
      (rootRun exampleWorld ⟨true, true, false, false⟩ ["g"]).map World.stdout ≠
        some (exampleWorld.stdout ++
          claimedFlagsOutput ⟨true, true, false, false⟩ (ascii "a\n") "g") :=
  ⟨by decide, rfl, by decide, by decide, by decide⟩

/-- Claim C9 on a file that does not exist: the read fails, the error description is
written to standard error, and `Execute` returns to its caller without reaching
`os.Exit(1)`, so no non-zero status is reported. -/
theorem Execute_missing_file_status :
    exampleWorld.files "missing" = .error "open missing: no such file or directory" ∧
      (Execute exampleWorld noFlags ["missing"]).map (fun r => (r.1.stderr, r.2)) =
        some ("open missing: no such file or directory\n", none) ∧
      ¬ ∃ (w' : World) (status : Nat),
          Execute exampleWorld noFlags ["missing"] = some (w', some status) ∧ status ≠ 0 := by
  refine ⟨rfl, by decide, ?_⟩
  rintro ⟨w', status, h, -⟩
  have h2 : (Execute exampleWorld noFlags ["missing"]).map (fun r => r.2) = some none := by decide
  rw [h] at h2
  cases h2

/-- Claim C10. The handlers `handleStdin` and `handleFile` return the same counts and
error on the same content for every request; at the level of `rootRun`, with the flags
bytes and lines set, the file `g` holding `"a\n"` gives the counts 2 and 1 while the
same content on standard input gives 2 and 0. -/
theorem stdin_file_divergence :
    (∀ (w : World) (f : String) (C : List Byte) (R : List String),
        w.files f = .ok C → w.stdin = C → w.stdinErr = none →
        (handleStdin w R).map (fun r => (r.2.1, r.2.2)) =
          (handleFile w f R).map (fun r => (r.2.1, r.2.2))) ∧
      exampleWorld.files "g" = .ok (ascii "a\n") ∧ exampleWorld.stdin = ascii "a\n" ∧
      (rootRun exampleWorld ⟨true, true, false, false⟩ ["g"]).map World.stdout = some "2 g1 g" ∧
      (rootRun exampleWorld ⟨true, true, false, false⟩ []).map World.stdout = some "2 0 " := by
  refine ⟨?_, rfl, rfl, by decide, by decide⟩
  intro w f C R h1 h2 h3
  subst h2
  simp only [handleStdin, readAllStdin, h3, handleFile, h1]
  cases count w.stdin R with
  | none => rfl
  | some r => rfl

end CcWc
